import Mathlib

/-!
# Verification of the doccrawl URL-frontier engine

This file embeds the core of the `doccrawl` crawler (Python) shallowly in
Lean 4 and proves or refutes the claims of its natural-language
specification.

Modelling conventions:

* Python strings are `List Char`; helper wrappers produce `String` at the
  API boundary where convenient.
* The Python standard library functions used by the source
  (`urllib.parse.urlsplit/urlparse/urljoin/urlunsplit/urlunparse`,
  `str.strip`, `str.lower`, `str.split`) are reimplemented following
  CPython's `urllib/parse.py`.  `ValueError`s (mismatched IPv6 brackets)
  are modelled with `Except`; the NFKC check of `_checknetloc`, which can
  only fire on non-ASCII input, is not modelled.
* Database tables are lists of rows plus an id counter; `datetime.now()`
  is an explicit `now : Nat` argument; SQL statements are translated to
  the corresponding pure list operations.
* `re.search(pattern, url, re.IGNORECASE)` is an oracle parameter
  `research : String → String → Bool`; page navigation and DOM link
  extraction are an oracle `pages : String → PageOutcome` whose links
  are the already-extracted-and-normalized URL set.
* `await e` where `e` calls an `async def` is modelled as the plain
  call, and logging calls are dropped.  The source also `await`s the
  *synchronous* methods of `FrontierCRUD` and `ConfigUrlLogCRUD`
  (main.py's per-URL store loop, the strategies' existence checks):
  there the call itself still runs to completion, and the `await` of
  its non-awaitable result then raises `TypeError`, which the
  enclosing `except` arm catches.  Those sites are modelled as
  raising (with `Except`) after the call's side effects, matching the
  runtime behaviour.
-/

namespace PyStr

/-- Characters removed by Python's `str.strip()` (ASCII whitespace). -/
def isPySpace (c : Char) : Bool :=
  c == ' ' || c == '\t' || c == '\n' || c == '\r' || c == '\x0b' || c == '\x0c'

/-- `str.strip()` on a character list. -/
def pyStrip (l : List Char) : List Char :=
  ((l.dropWhile isPySpace).reverse.dropWhile isPySpace).reverse

/-- `urllib.parse` removes tab, CR and LF from URLs before splitting
(`_UNSAFE_URL_BYTES_TO_REMOVE`). -/
def isUnsafe (c : Char) : Bool :=
  c == '\t' || c == '\r' || c == '\n'

/-- Removal of `_UNSAFE_URL_BYTES_TO_REMOVE` from a URL. -/
def removeUnsafe (l : List Char) : List Char :=
  l.filter (fun c => !(isUnsafe c))

/-- Characters allowed after the first character of a URL scheme
(`urllib.parse.scheme_chars`). -/
def isSchemeChar (c : Char) : Bool :=
  c.isAlphanum || c == '+' || c == '-' || c == '.'

/-- Split a list at the first occurrence of `d`: `some (before, after)`
when `d` occurs, `none` otherwise (Python `s.split(d, 1)` /
`s.find(d)`). -/
def splitFirst (d : Char) : List Char → Option (List Char × List Char)
  | [] => none
  | c :: cs =>
    if c = d then some ([], cs)
    else
      match splitFirst d cs with
      | none => none
      | some (a, b) => some (c :: a, b)

/-- Split a list at the last occurrence of `d`. -/
def splitLastAt (d : Char) (l : List Char) : Option (List Char × List Char) :=
  match splitFirst d l.reverse with
  | some (revSeg, revPre) => some (revPre.reverse, revSeg.reverse)
  | none => none

/-- Python `str.split(sep)` for a single-character separator
(`''.split('/') = ['']`). -/
def splitSegs : List Char → List (List Char)
  | [] => [[]]
  | c :: cs =>
    if c = '/' then [] :: splitSegs cs
    else
      match splitSegs cs with
      | [] => [[c]]
      | s :: ss => (c :: s) :: ss

/-- Python `'/'.join(parts)`. -/
def joinSegs : List (List Char) → List Char
  | [] => []
  | [s] => s
  | s :: ss => s ++ '/' :: joinSegs ss

end PyStr

namespace PyUrl

open PyStr

/-- Result of `urllib.parse.urlsplit`. -/
structure SplitRes where
  scheme : List Char
  netloc : List Char
  path : List Char
  query : List Char
  fragment : List Char
deriving DecidableEq, Repr

/-- Result of `urllib.parse.urlparse` (adds `params`). -/
structure ParseRes where
  scheme : List Char
  netloc : List Char
  path : List Char
  params : List Char
  query : List Char
  fragment : List Char
deriving DecidableEq, Repr

/-- Characters ending the netloc part (`_splitnetloc` stops at the first
of `/?#`). -/
def notNetlocDelim (c : Char) : Bool :=
  !(c == '/' || c == '?' || c == '#')

/-- The netloc/fragment/query phase of `urllib.parse.urlsplit`, applied
after scheme extraction (`scheme` is the already-extracted scheme,
`rest` the remainder of the URL). -/
def urlsplitRest (scheme rest : List Char) : Except Unit SplitRes :=
  let nr :=
    if rest.take 2 = ['/', '/'] then
      ((rest.drop 2).takeWhile notNetlocDelim,
       (rest.drop 2).dropWhile notNetlocDelim)
    else ([], rest)
  let netloc := nr.1
  let rest2 := nr.2
  if (netloc.contains '[' && !netloc.contains ']') ||
     (netloc.contains ']' && !netloc.contains '[') then
    .error ()
  else
    let fr :=
      match splitFirst '#' rest2 with
      | some (a, b) => (a, b)
      | none => (rest2, [])
    let qr :=
      match splitFirst '?' fr.1 with
      | some (a, b) => (a, b)
      | none => (fr.1, [])
    .ok ⟨scheme, netloc, qr.1, qr.2, fr.2⟩

/-- `urllib.parse.urlsplit(url, scheme=default)`.  Returns `.error ()`
where CPython raises `ValueError` (mismatched IPv6 brackets). -/
def urlsplitE (url0 : List Char) (defaultScheme : List Char) :
    Except Unit SplitRes :=
  let url := removeUnsafe url0
  match splitFirst ':' url with
  | some (before, after) =>
    match before with
    | [] => urlsplitRest defaultScheme url
    | c :: cs =>
      if c.isAlpha ∧ cs.all isSchemeChar then
        urlsplitRest ((c :: cs).map Char.toLower) after
      else urlsplitRest defaultScheme url
  | none => urlsplitRest defaultScheme url

/-- `urllib.parse._splitparams`: split `;params` off the last path
segment. -/
def splitParams (p : List Char) : List Char × List Char :=
  match splitLastAt '/' p with
  | some (pre, lastSeg) =>
    match splitFirst ';' lastSeg with
    | some (a, b) => (pre ++ '/' :: a, b)
    | none => (p, [])
  | none =>
    match splitFirst ';' p with
    | some (a, b) => (a, b)
    | none => (p, [])

/-- `urllib.parse.urlparse(url, scheme=default)`. -/
def urlparseE (url : List Char) (defaultScheme : List Char) :
    Except Unit ParseRes :=
  match urlsplitE url defaultScheme with
  | .error e => .error e
  | .ok s =>
    let pp := splitParams s.path
    .ok ⟨s.scheme, s.netloc, pp.1, pp.2, s.query, s.fragment⟩

/-- `urllib.parse.urlunsplit`. -/
def urlunsplit (s nl path q f : List Char) : List Char :=
  let url :=
    if nl ≠ [] ∨ path.take 2 = ['/', '/'] then
      let p2 := if path ≠ [] ∧ path.head? ≠ some '/' then '/' :: path else path
      '/' :: '/' :: (nl ++ p2)
    else path
  let url := if s ≠ [] then s ++ ':' :: url else url
  let url := if q ≠ [] then url ++ '?' :: q else url
  if f ≠ [] then url ++ '#' :: f else url

/-- `urllib.parse.urlunparse`. -/
def urlunparse (s nl path params q f : List Char) : List Char :=
  urlunsplit s nl (if params ≠ [] then path ++ ';' :: params else path) q f

/-- `urllib.parse.uses_relative`. -/
def usesRelative : List (List Char) :=
  ["", "ftp", "http", "gopher", "nntp", "imap", "wais", "file", "https",
   "shttp", "mms", "prospero", "rtsp", "rtspu", "sftp", "svn", "svn+ssh",
   "ws", "wss"].map String.toList

/-- `urllib.parse.uses_netloc`. -/
def usesNetloc : List (List Char) :=
  ["", "ftp", "http", "gopher", "nntp", "telnet", "imap", "wais", "file",
   "mms", "https", "shttp", "snews", "prospero", "rtsp", "rtspu", "rsync",
   "svn", "svn+ssh", "sftp", "nfs", "git", "git+ssh", "ws", "wss"].map
    String.toList

/-- The `..`/`.` segment resolution loop of `urljoin`. -/
def resolveSegs (segments : List (List Char)) : List (List Char) :=
  let resolved := segments.foldl
    (fun acc seg =>
      if seg = ['.', '.'] then acc.dropLast
      else if seg = ['.'] then acc
      else acc ++ [seg]) []
  if segments.getLast? = some ['.'] ∨ segments.getLast? = some ['.', '.'] then
    resolved ++ [[]]
  else resolved

/-- `urllib.parse.urljoin(base, url)`. -/
def urljoinE (base url : List Char) : Except Unit (List Char) :=
  if base = [] then .ok url
  else if url = [] then .ok base
  else
    match urlparseE base [] with
    | .error e => .error e
    | .ok bp =>
      match urlparseE url bp.scheme with
      | .error e => .error e
      | .ok up =>
        if up.scheme ≠ bp.scheme ∨ up.scheme ∉ usesRelative then .ok url
        else if up.scheme ∈ usesNetloc ∧ up.netloc ≠ [] then
          .ok (urlunparse up.scheme up.netloc up.path up.params up.query
            up.fragment)
        else
          let netloc :=
            if up.scheme ∈ usesNetloc then bp.netloc else up.netloc
          if up.path = [] ∧ up.params = [] then
            let query := if up.query = [] then bp.query else up.query
            .ok (urlunparse up.scheme netloc bp.path bp.params query
              up.fragment)
          else
            let baseParts0 := splitSegs bp.path
            let baseParts :=
              if baseParts0.getLast? ≠ some [] then baseParts0.dropLast
              else baseParts0
            let segments :=
              if up.path.head? = some '/' then splitSegs up.path
              else
                match baseParts ++ splitSegs up.path with
                | [] => []
                | [x] => [x]
                | x :: rest =>
                  x :: (rest.dropLast.filter (fun s => !s.isEmpty)) ++
                    [rest.getLast?.getD []]
            let joined := joinSegs (resolveSegs segments)
            let path := if joined = [] then ['/'] else joined
            .ok (urlunparse up.scheme netloc path up.params up.query
              up.fragment)

end PyUrl

namespace Doccrawl

open PyStr PyUrl

/-- `CrawlerStrategy._normalize_url` (core/strategies/base_strategy.py):
strip, reject empty and `javascript:`/`mailto:`/`tel:` prefixes, resolve
against `base` with `urljoin`, require scheme and netloc, and rebuild
`f"{scheme}://{netloc}{path}"` plus `?query` when the query is nonempty
(the fragment and the `;params` of the last path segment are dropped).
Exceptions from `urllib` yield `none`. -/
def normalizeUrlL (url base : List Char) : Option (List Char) :=
  let u := pyStrip url
  if u = [] ∨ "javascript:".toList.isPrefixOf u ∨
      "mailto:".toList.isPrefixOf u ∨ "tel:".toList.isPrefixOf u then
    none
  else
    match urljoinE base u with
    | .error _ => none
    | .ok absolute =>
      match urlparseE absolute [] with
      | .error _ => none
      | .ok p =>
        if p.scheme = [] ∨ p.netloc = [] then none
        else
          some (p.scheme ++ ':' :: '/' :: '/' ::
            (p.netloc ++ p.path ++
              (if p.query ≠ [] then '?' :: p.query else [])))

/-- `CrawlerStrategy._normalize_url` on `String`s. -/
def normalizeUrl (url base : String) : Option String :=
  (normalizeUrlL url.toList base.toList).map List.asString

/-- Python `needle in hay` on character lists. -/
def listContainsSub (needle : List Char) : List Char → Bool
  | [] => needle.isEmpty
  | c :: cs => needle.isPrefixOf (c :: cs) || listContainsSub needle cs

/-- Python `needle in hay` on strings. -/
def strContains (hay needle : String) : Bool :=
  listContainsSub needle.toList hay.toList

/-- Python `str.lower()` (ASCII). -/
def strLower (s : String) : String :=
  (s.toList.map Char.toLower).asString

/-- `UrlStatus` (models/frontier_model.py).  Modelled from the spec:
the `frontier_model.py` module itself is not part of the sources; §3 of
the spec lists the five states. -/
inductive UrlStatus
  | pending
  | processing
  | processed
  | failed
  | skipped
deriving DecidableEq, Repr, BEq

/-- `UrlType` (models/frontier_model.py).  Modelled from the spec: §3
lists DIRECT_TARGET, SINGLE_PAGE, SEED_TARGET, COMPLEX_AI, FULL_AI as
Types 0..4. -/
inductive UrlType
  | directTarget
  | singlePage
  | seedTarget
  | complexAI
  | fullAI
deriving DecidableEq, Repr, BEq

/-- `FrontierUrl` (models/frontier_model.py).  Modelled from the spec:
the pydantic model is not among the sources; fields follow §3
(FrontierEntry), with `id` absent until the row is stored. -/
structure FrontierUrl where
  id : Option Nat := none
  url : String
  category : String
  urlType : UrlType
  depth : Nat
  maxDepth : Nat
  mainDomain : String := ""
  targetPatterns : List String
  seedPattern : Option String := none
  isTarget : Bool := false
  parentUrl : Option String := none
deriving DecidableEq, Repr

/-- `urlparse(url).netloc` as used for `main_domain`. -/
def netlocOf (url : String) : String :=
  match urlsplitE url.toList [] with
  | .ok r => r.netloc.asString
  | .error _ => ""

/-- `CrawlerStrategy.create_frontier_url` (base_strategy.py): child
entry built from a parent. -/
def createFrontierUrl (url : String) (parent : FrontierUrl)
    (isTarget : Bool) : FrontierUrl :=
  { url := url
    category := parent.category
    urlType := parent.urlType
    depth := parent.depth + 1
    maxDepth := parent.maxDepth
    targetPatterns := parent.targetPatterns
    seedPattern := parent.seedPattern
    isTarget := isTarget
    parentUrl := some parent.url
    mainDomain := netlocOf url
    id := none }

/-- One row of the `url_frontier` table (db/connection.py — note the
schema has only a plain index on `url`, no UNIQUE constraint). -/
structure FrontierRow where
  id : Nat
  url : String
  category : String
  urlType : UrlType
  depth : Nat
  maxDepth : Nat
  mainDomain : String
  targetPatterns : List String
  seedPattern : Option String
  isTarget : Bool
  parentUrl : Option String
  status : UrlStatus
  errorMessage : Option String
  insertDate : Nat
  lastUpdate : Nat
deriving DecidableEq, Repr

/-- The `url_frontier` table: rows plus the SERIAL id counter. -/
structure FrontierDb where
  rows : List FrontierRow
  nextId : Nat
deriving DecidableEq, Repr

/-- The row inserted by `FrontierCRUD.create_url` /
`create_urls_batch`: status forced to PENDING, both timestamps set to
`now`, `main_domain` derived from the URL when absent. -/
def rowOfFrontierUrl (fu : FrontierUrl) (i now : Nat) : FrontierRow :=
  { id := i
    url := fu.url
    category := fu.category
    urlType := fu.urlType
    depth := fu.depth
    maxDepth := fu.maxDepth
    mainDomain := if fu.mainDomain = "" then netlocOf fu.url else fu.mainDomain
    targetPatterns := fu.targetPatterns
    seedPattern := fu.seedPattern
    isTarget := fu.isTarget
    parentUrl := fu.parentUrl
    status := .pending
    errorMessage := none
    insertDate := now
    lastUpdate := now }

/-- `FrontierCRUD.create_url` (frontier_crud.py): INSERT ... RETURNING
id. -/
def createUrl (db : FrontierDb) (fu : FrontierUrl) (now : Nat) :
    Nat × FrontierDb :=
  (db.nextId,
   { rows := db.rows ++ [rowOfFrontierUrl fu db.nextId now]
     nextId := db.nextId + 1 })

/-- `FrontierCRUD.create_urls_batch` (frontier_crud.py): plain batch
INSERT of every entry, no existence check and no ON CONFLICT clause.
Chunking (`FrontierBatch.chunk_urls`) does not change the resulting
table, so the batch is inserted row by row. -/
def createUrlsBatch (db : FrontierDb) (fus : List FrontierUrl)
    (now : Nat) : FrontierDb :=
  fus.foldl (fun d fu => (createUrl d fu now).2) db

/-- The SELECT EXISTS query of `FrontierCRUD.exists_in_frontier`. -/
def existsQuery (db : FrontierDb) (url : String) : Bool :=
  db.rows.any (fun r => r.url == url)

/-- `FrontierCRUD.exists_in_frontier` (frontier_crud.py): the result of
the underlying query, with any exception swallowed and turned into
`False`. -/
def existsInFrontier (qres : Except String Bool) : Bool :=
  match qres with
  | .ok b => b
  | .error _ => false

/-- `exists_in_frontier` against a healthy store. -/
def existsInFrontierOk (db : FrontierDb) (url : String) : Bool :=
  existsInFrontier (.ok (existsQuery db url))

/-- `FrontierCRUD.update_url_status` (frontier_crud.py): an
unconditional `UPDATE url_frontier SET status, last_update,
error_message WHERE id = %s` — the current status of the row is never
consulted. -/
def updateUrlStatus (db : FrontierDb) (urlId : Nat) (st : UrlStatus)
    (err : Option String) (now : Nat) : FrontierDb :=
  { db with
    rows := db.rows.map (fun r =>
      if r.id = urlId then
        { r with status := st, lastUpdate := now, errorMessage := err }
      else r) }

/-- The WHERE conditions built by `FrontierCRUD.get_pending_urls`:
status = PENDING always; category only when truthy (i.e. present and
nonempty); url_type only when present (`UrlType` is modelled as a plain
`Enum`, which is always truthy). -/
def pendingCond (category : Option String) (urlType : Option UrlType)
    (r : FrontierRow) : Bool :=
  decide (r.status = UrlStatus.pending) &&
    (match category with
     | some c => if c = "" then true else decide (r.category = c)
     | none => true) &&
    (match urlType with
     | some t => decide (r.urlType = t)
     | none => true)

/-- `FrontierCRUD.get_pending_urls` (frontier_crud.py): `SELECT * ...
WHERE ... ORDER BY insert_date ASC LIMIT %s`. -/
def getPendingUrls (db : FrontierDb) (category : Option String)
    (urlType : Option UrlType) (lim : Nat) : List FrontierRow :=
  ((db.rows.filter (pendingCond category urlType)).mergeSort
    (fun a b => a.insertDate ≤ b.insertDate)).take lim

/-- One row of the `config_url_logs` table (db/connection.py), the
fields relevant to the run-log claims. -/
structure ConfigLogRow where
  id : Nat
  url : String
  category : String
  status : String
  totalUrlsFound : Nat
  targetUrlsFound : Nat
  seedUrlsFound : Nat
  failedUrls : Nat
  warningMessages : List String
  reachedDepth : Nat
  updatedAt : Nat
deriving DecidableEq, Repr

/-- `ConfigUrlLogCRUD.increment_counters` (config_url_log_crud.py).  It
delegates to `BaseCRUD.update`, whose SQL is `UPDATE ... SET col = %s`,
so each counter column is OVERWRITTEN with the argument (and
`total_urls_found` with `target_urls + seed_urls`); nothing is added to
the previous values. -/
def incrementCounters (rows : List ConfigLogRow)
    (logId targetUrls seedUrls failedUrls now : Nat) : List ConfigLogRow :=
  rows.map (fun r =>
    if r.id = logId then
      { r with
        totalUrlsFound := targetUrls + seedUrls
        targetUrlsFound := targetUrls
        seedUrlsFound := seedUrls
        failedUrls := failedUrls
        updatedAt := now }
    else r)

/-- Outcome of processing one URL with the page session: `fail` models
`page.goto` raising (navigation timeout, DNS failure — caught by the
strategy's `except` block), `noResponse` models `goto` returning
`None`, and `resp` carries the HTTP status, the `content-type` header
and the set of links that `_get_page_urls` / `_extract_file_urls`
extract from the stabilized page (already normalized). -/
inductive PageOutcome
  | fail
  | noResponse
  | resp (status : Nat) (contentType : String) (links : List String)

/-- `CrawlerStrategy._is_target_url` (base_strategy.py): true iff some
pattern `search`-matches the URL.  `research p u` is the oracle for
`re.search(p, u, re.IGNORECASE)`; `_matches_pattern` returns `False`
for an invalid regex, which the oracle absorbs. -/
def isTargetUrl (research : String → String → Bool) (url : String)
    (patterns : List String) : Bool :=
  patterns.any (fun p => research p url)

/-- The document content types Type 0 looks for in the `content-type`
header (type_0.py line 64). -/
def isDocContentType (ct : String) : Bool :=
  ["pdf", "msword", "vnd.openxmlformats", "vnd.ms-excel"].any
    (fun d => strContains ct d)

/-- The document extensions Type 0 looks for in the lowercased URL
(type_0.py line 68; a substring check, not a path-suffix check). -/
def hasDocExtension (url : String) : Bool :=
  [".pdf", ".doc", ".docx", ".xls", ".xlsx"].any
    (fun e => strContains (strLower url) e)

/-- `Type0Strategy.execute` (type_0.py).  Returns the discovered list
(always empty) and the possibly-mutated `frontier_url`.  Note that
`is_document` and the extension check only feed a warning log: the
entry is marked `is_target=True` whenever the patterns are nonempty,
the URL matches, and the response has status 200. -/
def type0Execute (research : String → String → Bool)
    (pages : String → PageOutcome) (fu : FrontierUrl) :
    List FrontierUrl × FrontierUrl :=
  if fu.targetPatterns = [] then ([], fu)
  else if !(isTargetUrl research fu.url fu.targetPatterns) then ([], fu)
  else
    match pages fu.url with
    | .fail => ([], fu)
    | .noResponse => ([], fu)
    | .resp st ct _links =>
      if st ≠ 200 then ([], fu)
      else
        let _isDocument :=
          isDocContentType (strLower ct) || hasDocExtension fu.url
        ([], { fu with isTarget := true })

/-- The URL loop of `Type1Strategy.execute` (type_1.py:65-88).  For a
link that is not the parent URL and matches the target patterns the
code evaluates `self.frontier_crud and await
self.frontier_crud.exists_in_frontier(url)`: with no frontier handle
(`process_single_url` passes `frontier_crud=None`) the conjunction
short-circuits and the link is admitted unchecked; with a handle
present, the synchronous `exists_in_frontier` returns a `bool` whose
`await` raises `TypeError` (modelled as `.error ()`), aborting the
loop. -/
def type1Loop (research : String → String → Bool)
    (db : Option FrontierDb) (fu : FrontierUrl) :
    List String → Except Unit (List FrontierUrl)
  | [] => .ok []
  | u :: us =>
    if u != fu.url && isTargetUrl research u fu.targetPatterns then
      match db with
      | some _ => .error ()
      | none =>
        match type1Loop research db fu us with
        | .error e => .error e
        | .ok rest => .ok (createFrontierUrl u fu true :: rest)
    else type1Loop research db fu us

/-- `Type1Strategy.execute` (type_1.py).  All exceptions — navigation
timeout and the `TypeError` raised by `await`ing the synchronous
existence check alike — are caught inside `execute` and produce
`[]`. -/
def type1Execute (research : String → String → Bool)
    (pages : String → PageOutcome) (db : Option FrontierDb)
    (fu : FrontierUrl) : List FrontierUrl :=
  if fu.targetPatterns = [] then []
  else
    match pages fu.url with
    | .fail => []
    | .noResponse => []
    | .resp st _ links =>
      if st ≠ 200 then []
      else
        match type1Loop research db fu links with
        | .error _ => []
        | .ok l => l

/-- `Type2Strategy._extract_page_urls` (type_2.py): partition the links
of `url` into target matches and seed matches (seeds exclude the
strategy's own root URL; targets do not). -/
def type2ExtractPage (research : String → String → Bool)
    (pages : String → PageOutcome) (fu : FrontierUrl) (url : String) :
    List String × List String :=
  match pages url with
  | .fail => ([], [])
  | .noResponse => ([], [])
  | .resp st _ links =>
    if st ≠ 200 then ([], [])
    else
      (links.filter (fun u => isTargetUrl research u fu.targetPatterns),
       links.filter (fun u =>
         (match fu.seedPattern with
          | some sp => research sp u
          | none => false) && u != fu.url))

/-- A target-admission loop of `Type2Strategy.execute` (used both for
the root page's targets and for each seed page's targets).  The guard
is `if not self.frontier_crud or not await
self.frontier_crud.exists_in_frontier(url)`: with no handle the first
disjunct short-circuits and the target is admitted unchecked; with a
handle present the `await` of the synchronous call's `bool` result
raises `TypeError` (modelled as `.error ()`). -/
def type2AdmitTargets (db : Option FrontierDb) (parent : FrontierUrl) :
    List String → Except Unit (List FrontierUrl)
  | [] => .ok []
  | u :: us =>
    match db with
    | some _ => .error ()
    | none =>
      match type2AdmitTargets db parent us with
      | .error e => .error e
      | .ok rest => .ok (createFrontierUrl u parent true :: rest)

/-- The seed loop of `Type2Strategy.execute`: per seed the guard `if
self.frontier_crud and await self.frontier_crud.exists_in_frontier(
seed_url)` short-circuits to admission when the handle is absent and
raises `TypeError` when it is present; an admitted seed is followed by
the targets of its page (admitted via `type2AdmitTargets`, with the
seed entry as parent). -/
def type2SeedLoop (research : String → String → Bool)
    (pages : String → PageOutcome) (db : Option FrontierDb)
    (fu : FrontierUrl) : List String → Except Unit (List FrontierUrl)
  | [] => .ok []
  | s :: ss =>
    match db with
    | some _ => .error ()
    | none =>
      let sf := createFrontierUrl s fu false
      match type2AdmitTargets db sf
          (type2ExtractPage research pages fu s).1 with
      | .error e => .error e
      | .ok ts =>
        match type2SeedLoop research pages db fu ss with
        | .error e => .error e
        | .ok rest => .ok (sf :: (ts ++ rest))

/-- `Type2Strategy.execute` (type_2.py): admit targets of the root
page, then, below max depth, run the seed loop; any `TypeError` from
an `await`ed existence check propagates to `execute`'s blanket
`except`, which discards everything collected so far and returns
`[]`. -/
def type2Execute (research : String → String → Bool)
    (pages : String → PageOutcome) (db : Option FrontierDb)
    (fu : FrontierUrl) : List FrontierUrl :=
  if fu.targetPatterns = [] then []
  else
    let tp := type2ExtractPage research pages fu fu.url
    match type2AdmitTargets db fu tp.1 with
    | .error _ => []
    | .ok newT =>
      if fu.depth < fu.maxDepth then
        match type2SeedLoop research pages db fu tp.2 with
        | .error _ => []
        | .ok more => newT ++ more
      else newT

/-- `Crawler._process_url` (core/crawler.py): run the strategy, batch
insert whatever it returned, then mark the entry PROCESSED.  The
strategy is passed as a function (the dispatch table maps `url_type` to
the strategy class).  In this deterministic model the store operations
do not fault, so the `except` branch that would mark the entry FAILED
is not reachable; a strategy-internal failure (timeout, non-200,
extraction error) does NOT raise — the strategies above return `[]`
instead. -/
def crawlerProcessUrl (exec : FrontierDb → FrontierUrl → List FrontierUrl)
    (db : FrontierDb) (fu : FrontierUrl) (now : Nat) : FrontierDb :=
  let newUrls := exec db fu
  let db1 := if newUrls ≠ [] then createUrlsBatch db newUrls now else db
  match fu.id with
  | some i => updateUrlStatus db1 i .processed none now
  | none => db1

/-- One round of the `Crawler.run` loop: the batch of pending URLs is
processed one after the other (the `asyncio.gather` of the source,
sequentialized). -/
def processBatch (exec : FrontierDb → FrontierUrl → List FrontierUrl)
    (db : FrontierDb) (batch : List FrontierUrl) (now : Nat) : FrontierDb :=
  batch.foldl (fun d fu => crawlerProcessUrl exec d fu now) db

/-- The per-URL store loop of `CrawlerApp.process_url_at_depth`
(main.py lines 118–137).  Each iteration runs `if not await
self.frontier_crud.exists_in_frontier(str(url.url))`: the synchronous
`exists_in_frontier` executes (a side-effect-free SELECT) and returns a
`bool`, and the `await` of that `bool` then raises `TypeError` before
the test; the `except store_error` arm counts the URL in
`failed_count` and moves on.  `create_url` is therefore never reached:
the frontier is left unchanged, `stored_urls` stays empty, and the
result is the untouched store with the failed count. -/
def storeNewUrlsGo (db : FrontierDb) (failedCount : Nat) :
    List FrontierUrl → FrontierDb × Nat
  | [] => (db, failedCount)
  | _ :: us => storeNewUrlsGo db (failedCount + 1) us

/-- Entry point of the store loop (`stored_urls = []`,
`failed_count = 0`). -/
def storeNewUrls (db : FrontierDb) (urls : List FrontierUrl) :
    FrontierDb × Nat :=
  storeNewUrlsGo db 0 urls

/-- A run-log row mid-run, with nonzero counters. -/
def logRowC3 : ConfigLogRow :=
  { id := 1
    url := "https://r/"
    category := "cat"
    status := "running"
    totalUrlsFound := 9
    targetUrlsFound := 5
    seedUrlsFound := 4
    failedUrls := 3
    warningMessages := []
    reachedDepth := 1
    updatedAt := 0 }

/-- A frontier row in the terminal PROCESSED state. -/
def rowProcessedC5 : FrontierRow :=
  { id := 1
    url := "https://a/x.pdf"
    category := "cat"
    urlType := .seedTarget
    depth := 1
    maxDepth := 1
    mainDomain := "a"
    targetPatterns := []
    seedPattern := none
    isTarget := true
    parentUrl := none
    status := .processed
    errorMessage := none
    insertDate := 0
    lastUpdate := 0 }

/-- A Type 0 entry whose URL matches its pattern but is not a
document. -/
def fuC6 : FrontierUrl :=
  { url := "http://h/page"
    category := "cat"
    urlType := .directTarget
    depth := 0
    maxDepth := 0
    mainDomain := "h"
    targetPatterns := ["page"]
    seedPattern := none }

/-- Pattern oracle for the C6 counterexample. -/
def researchC6 : String → String → Bool :=
  fun p u => p == "page" && u == "http://h/page"

/-- Page oracle for the C6 counterexample: HTTP 200 with a text/html
content type. -/
def pagesC6 : String → PageOutcome :=
  fun _ => .resp 200 "text/html" []

/-- The failure modes of the claim for a single URL: navigation raised
(timeout, DNS), `goto` returned no response, or a non-200 status. -/
def fetchFailed : PageOutcome → Prop
  | .fail => True
  | .noResponse => True
  | .resp st _ _ => st ≠ 200

/-- Every row carrying id `i` has status PROCESSED. -/
def idProcessed (i : Nat) (db : FrontierDb) : Prop :=
  ∀ r ∈ db.rows, r.id = i → r.status = .processed

/-- The Type 1 row of the C1 witness run, already flipped to
PROCESSING. -/
def rowC1 : FrontierRow :=
  { id := 1
    url := "http://h/list"
    category := "cat"
    urlType := .singlePage
    depth := 0
    maxDepth := 0
    mainDomain := "h"
    targetPatterns := ["pdf"]
    seedPattern := none
    isTarget := false
    parentUrl := none
    status := .processing
    errorMessage := none
    insertDate := 0
    lastUpdate := 0 }

/-- A second pending row processed in the same batch. -/
def rowC1b : FrontierRow :=
  { rowC1 with id := 2, url := "http://h/list2", status := .pending }

/-- Frontier state for the C1 scenario. -/
def dbC1 : FrontierDb := ⟨[rowC1, rowC1b], 3⟩

/-- The Type 1 entry whose navigation times out. -/
def fuC1 : FrontierUrl :=
  { id := some 1
    url := "http://h/list"
    category := "cat"
    urlType := .singlePage
    depth := 0
    maxDepth := 0
    mainDomain := "h"
    targetPatterns := ["pdf"]
    seedPattern := none }

/-- The second entry of the batch. -/
def fuC1b : FrontierUrl := { fuC1 with id := some 2, url := "http://h/list2" }

/-- Page oracle for C1: every navigation times out. -/
def pagesC1 : String → PageOutcome := fun _ => .fail

/-! ## Toolbox for the URL-normalizer claims (C4, C9) -/

/-- `assembleUrl`'s query part. -/
def qpart (q : List Char) : List Char := if q = [] then [] else '?' :: q

/-- `assembleUrl`'s fragment part. -/
def fpart (f : List Char) : List Char := if f = [] then [] else '#' :: f

/-- An absolute URL assembled from scheme, netloc, path, query and
fragment. -/
def assembleUrl (s nl p q f : List Char) : List Char :=
  s ++ ':' :: '/' :: '/' :: (nl ++ p ++ qpart q ++ fpart f)

/-- A syntactically valid scheme: nonempty, alphabetic first character,
scheme characters afterwards. -/
def ValidScheme : List Char → Prop
  | [] => False
  | c :: cs => c.isAlpha = true ∧ cs.all PyStr.isSchemeChar = true

/-- The netloc passes `urlsplit`'s IPv6-bracket check. -/
def BracketOk (nl : List Char) : Prop :=
  ((nl.contains '[' && !nl.contains ']') ||
   (nl.contains ']' && !nl.contains '[')) = false

/-- Rows used by the C8 witness. -/
def rowC8a : FrontierRow := { rowC1b with id := 4, insertDate := 9 }

/-- Second C8 row. -/
def rowC8b : FrontierRow :=
  { rowC1b with id := 5, url := "http://h/a", insertDate := 2 }

/-- Third C8 row (different category). -/
def rowC8c : FrontierRow :=
  { rowC1b with id := 6, url := "http://h/b", category := "other", insertDate := 1 }

/-- Store used by the C8 witness. -/
def dbC8 : FrontierDb := ⟨[rowC8a, rowC8b, rowC8c], 7⟩

end Doccrawl

namespace Doccrawl

open PyStr PyUrl

/-! ## Claim C7 -/

/-- C7: every child `FrontierUrl` created from a parent entry has
`category`, `url_type`, `max_depth`, `target_patterns` and
`seed_pattern` equal to the parent's values unmodified, `depth` equal
to `parent.depth + 1`, and `parent_url` equal to the parent's url. -/
theorem createFrontierUrl_inherits_parent (url : String)
    (parent : FrontierUrl) (isT : Bool) :
    (createFrontierUrl url parent isT).category = parent.category ∧
    (createFrontierUrl url parent isT).urlType = parent.urlType ∧
    (createFrontierUrl url parent isT).maxDepth = parent.maxDepth ∧
    (createFrontierUrl url parent isT).targetPatterns =
      parent.targetPatterns ∧
    (createFrontierUrl url parent isT).seedPattern = parent.seedPattern ∧
    (createFrontierUrl url parent isT).depth = parent.depth + 1 ∧
    (createFrontierUrl url parent isT).parentUrl = some parent.url :=
  ⟨rfl, rfl, rfl, rfl, rfl, rfl, rfl⟩

/-! ## Claim C3 -/

/-- C3: `increment_counters(id, targets=2, seeds=1, failed=1)` on a log
whose counters are (9, 5, 4, 3) leaves (3, 2, 1, 1) — the `UPDATE ...
SET col = %s` of `BaseCRUD.update` overwrites each counter with the
argument instead of adding it, contradicting the method's own name and
docstring ("Increment URL counters"); in particular `target_urls_found`
drops from 5 to 2, so the counters are not monotone. -/
theorem incrementCounters_overwrites :
    ((incrementCounters [logRowC3] 1 2 1 1 7).map
      (fun r => (r.totalUrlsFound, r.targetUrlsFound, r.seedUrlsFound,
        r.failedUrls)) = [(3, 2, 1, 1)]) ∧
    ((incrementCounters [logRowC3] 1 2 1 1 7).map
      (fun r => r.targetUrlsFound) ≠ [logRowC3.targetUrlsFound + 2]) := by
  decide

/-! ## Claim C5 -/

/-- C5 counterexample: `update_url_status` applied to an entry whose
current status is PROCESSED does not reject the update — it performs
the forbidden PROCESSED→PENDING transition. -/
theorem updateUrlStatus_mutates_terminal_row :
    rowProcessedC5.status = .processed ∧
    (updateUrlStatus ⟨[rowProcessedC5], 2⟩ 1 .pending none 5).rows.map
      (fun r => r.status) = [.pending] := by
  decide

/-- C5 (amended): `update_url_status` contains no transition guard: it
unconditionally rewrites every row carrying the given id to the new
status (updating `last_update` and `error_message`), whatever the
current status — including the terminal PROCESSED and FAILED states —
and leaves rows with other ids untouched. -/
theorem updateUrlStatus_unconditional (db : FrontierDb) (i : Nat)
    (st : UrlStatus) (err : Option String) (now : Nat) (r : FrontierRow)
    (hr : r ∈ db.rows) :
    (r.id = i →
      { r with status := st, lastUpdate := now, errorMessage := err } ∈
        (updateUrlStatus db i st err now).rows) ∧
    (r.id ≠ i → r ∈ (updateUrlStatus db i st err now).rows) := by
  constructor
  · intro h
    have hm := List.mem_map_of_mem
      (fun r : FrontierRow =>
        if r.id = i then
          { r with status := st, lastUpdate := now, errorMessage := err }
        else r) hr
    simpa [updateUrlStatus, h] using hm
  · intro h
    have hm := List.mem_map_of_mem
      (fun r : FrontierRow =>
        if r.id = i then
          { r with status := st, lastUpdate := now, errorMessage := err }
        else r) hr
    simpa [updateUrlStatus, h] using hm

/-- C5 witness: the amended theorem applied to the concrete PROCESSED
row. -/
theorem updateUrlStatus_unconditional_witness :
    ({ rowProcessedC5 with
        status := UrlStatus.skipped
        lastUpdate := 5
        errorMessage := none } : FrontierRow) ∈
      (updateUrlStatus ⟨[rowProcessedC5], 2⟩ 1 .skipped none 5).rows :=
  (updateUrlStatus_unconditional ⟨[rowProcessedC5], 2⟩ 1 .skipped none 5
    rowProcessedC5 (by decide)).1 rfl

/-! ## Claim C10 -/

/-- C10: when the underlying EXISTS query fails, `exists_in_frontier`
swallows the error and returns `False`, reporting a URL as absent even
when the store does contain it (second conjunct: the same check on a
healthy store returns `True`). -/
theorem existsInFrontier_fault_reports_absent (db : FrontierDb)
    (url e : String) (h : existsQuery db url = true) :
    existsInFrontier (Except.error e) = false ∧
    existsInFrontierOk db url = true :=
  ⟨rfl, by simpa [existsInFrontierOk, existsInFrontier] using h⟩

/-- C10 witness: a store containing the URL, with the faulted check
returning false. -/
theorem existsInFrontier_fault_witness :
    existsInFrontier (Except.error "connection refused") = false ∧
    existsInFrontierOk ⟨[rowProcessedC5], 2⟩ "https://a/x.pdf" = true :=
  existsInFrontier_fault_reports_absent ⟨[rowProcessedC5], 2⟩
    "https://a/x.pdf" "connection refused" (by decide)

/-! ## Claim C6 -/

/-- C6 counterexample: the response content type contains none of the
document markers and the URL carries no document extension, yet Type 0
still marks the entry `is_target=true` — the document check only feeds
a warning log. -/
theorem type0_marks_target_without_document_check :
    isDocContentType (strLower "text/html") = false ∧
    hasDocExtension "http://h/page" = false ∧
    (type0Execute researchC6 pagesC6 fuC6).2.isTarget = true := by
  decide

/-- C6 (amended): Type 0 discovers no child URLs, and marks the entry
`is_target=true` iff the target patterns are nonempty, the URL matches
them, and the fetch returns HTTP 200 — the document-ish content type /
extension condition plays no part in the decision (it is only
logged). -/
theorem type0_isTarget_iff (research : String → String → Bool)
    (pages : String → PageOutcome) (fu : FrontierUrl)
    (h : fu.isTarget = false) :
    (type0Execute research pages fu).1 = [] ∧
    ((type0Execute research pages fu).2.isTarget = true ↔
      (fu.targetPatterns ≠ [] ∧
       isTargetUrl research fu.url fu.targetPatterns = true ∧
       ∃ ct links, pages fu.url = PageOutcome.resp 200 ct links)) := by
  unfold type0Execute
  by_cases hp : fu.targetPatterns = []
  · simp [hp, h]
  · by_cases hm : isTargetUrl research fu.url fu.targetPatterns = true
    · cases hpg : pages fu.url with
      | fail => simp [hp, hm, hpg, h]
      | noResponse => simp [hp, hm, hpg, h]
      | resp st ct links =>
        by_cases hst : st = 200
        · subst hst
          simp [hp, hm, hpg]
        · simp [hp, hm, hpg, hst, h]
    · simp [hp, Bool.not_eq_true _ ▸ hm, h, hm]

/-- C6 witness: the amended theorem at the counterexample input — the
entry is marked because pattern, match and status 200 hold. -/
theorem type0_isTarget_iff_witness :
    (type0Execute researchC6 pagesC6 fuC6).1 = [] ∧
    ((type0Execute researchC6 pagesC6 fuC6).2.isTarget = true ↔
      (fuC6.targetPatterns ≠ [] ∧
       isTargetUrl researchC6 fuC6.url fuC6.targetPatterns = true ∧
       ∃ ct links, pagesC6 fuC6.url = PageOutcome.resp 200 ct links)) :=
  type0_isTarget_iff researchC6 pagesC6 fuC6 rfl

/-! ## Claim C2 -/

/-- Helper: the store loop leaves the frontier untouched and counts
every URL as failed (adding to the running count). -/
theorem storeNewUrlsGo_count (urls : List FrontierUrl) (db : FrontierDb)
    (n : Nat) : storeNewUrlsGo db n urls = (db, n + urls.length) := by
  induction urls generalizing n with
  | nil => simp [storeNewUrlsGo]
  | cons u us ih =>
    simp only [storeNewUrlsGo, ih, List.length_cons, Prod.mk.injEq,
      true_and]
    omega

/-- Helper: with a frontier handle present, the first target reaching
the admission guard raises `TypeError`. -/
theorem type2AdmitTargets_some (db : FrontierDb) (parent : FrontierUrl) :
    ∀ l : List String, type2AdmitTargets (some db) parent l =
      (if l = [] then Except.ok [] else Except.error ())
  | [] => by simp [type2AdmitTargets]
  | u :: us => by simp [type2AdmitTargets]

/-- Helper: with a frontier handle present, the first seed reaching the
seed loop raises `TypeError`. -/
theorem type2SeedLoop_some (research : String → String → Bool)
    (pages : String → PageOutcome) (db : FrontierDb) (fu : FrontierUrl) :
    ∀ l : List String, type2SeedLoop research pages (some db) fu l =
      (if l = [] then Except.ok [] else Except.error ())
  | [] => by simp [type2SeedLoop]
  | s :: ss => by simp [type2SeedLoop]

/-- C2: code bug — the admission paths cannot admit anything at all.
The controller's store loop (`process_url_at_depth`) `await`s the
synchronous `exists_in_frontier`, so every iteration raises
`TypeError` and is counted as a store failure: the frontier is
returned unchanged, with no row ever inserted or skipped-as-present
(first conjunct).  On the crawler's batch path the strategy holds a
frontier handle, and any execution reaching an existence check raises
the same `TypeError` and returns `[]` — shown for Type 2 at every
input (second conjunct) — so `create_urls_batch` is never called with
a nonempty batch.  Url-uniqueness is therefore preserved only
vacuously, while the admission semantics the claim describes (skip
present URLs, store absent ones) never executes. -/
theorem admission_paths_never_insert (research : String → String → Bool)
    (pages : String → PageOutcome) (db : FrontierDb) (fu : FrontierUrl)
    (urls : List FrontierUrl) :
    storeNewUrls db urls = (db, urls.length) ∧
    type2Execute research pages (some db) fu = [] := by
  constructor
  · simpa [storeNewUrls] using storeNewUrlsGo_count urls db 0
  · have hT := type2AdmitTargets_some db fu
      (type2ExtractPage research pages fu fu.url).1
    have hS := type2SeedLoop_some research pages db fu
      (type2ExtractPage research pages fu fu.url).2
    by_cases hp : fu.targetPatterns = [] <;>
      by_cases h1 : (type2ExtractPage research pages fu fu.url).1 = [] <;>
        by_cases h2 : (type2ExtractPage research pages fu fu.url).2 = [] <;>
          by_cases hd : fu.depth < fu.maxDepth <;>
            simp [type2Execute, hT, hS, hp, h1, h2, hd,
              type2AdmitTargets, type2SeedLoop]

/-! ## Claim C1 -/

/-- Under any fetch failure Type 1 swallows the error inside `execute`
and returns no discovered URLs. -/
theorem type1Execute_fail_empty (research : String → String → Bool)
    (pages : String → PageOutcome) (db : Option FrontierDb)
    (fu : FrontierUrl) (hfail : fetchFailed (pages fu.url)) :
    type1Execute research pages db fu = [] := by
  unfold type1Execute
  by_cases hp : fu.targetPatterns = []
  · simp [hp]
  · cases hpg : pages fu.url with
    | fail => simp [hp, hpg]
    | noResponse => simp [hp, hpg]
    | resp st ct links =>
      rw [hpg] at hfail
      have hst : st ≠ 200 := hfail
      simp [hp, hpg, hst]

/-- Batch inserts only increase the id counter. -/
theorem createUrlsBatch_nextId_le (l : List FrontierUrl) :
    ∀ (db : FrontierDb) (now : Nat),
      db.nextId ≤ (createUrlsBatch db l now).nextId := by
  induction l with
  | nil => intro db now; exact Nat.le_refl _
  | cons u us ih =>
    intro db now
    have h := ih (createUrl db u now).2 now
    simp only [createUrlsBatch, List.foldl_cons] at h ⊢
    exact Nat.le_trans (Nat.le_succ _) h

/-- Every row after a batch insert is an old row or a fresh one with an
id at or above the old counter. -/
theorem createUrlsBatch_mem (l : List FrontierUrl) :
    ∀ (db : FrontierDb) (now : Nat) (r : FrontierRow),
      r ∈ (createUrlsBatch db l now).rows →
      r ∈ db.rows ∨ db.nextId ≤ r.id := by
  induction l with
  | nil => intro db now r hr; exact Or.inl hr
  | cons u us ih =>
    intro db now r hr
    simp only [createUrlsBatch, List.foldl_cons] at hr
    rcases ih (createUrl db u now).2 now r hr with h | h
    · simp only [createUrl, List.mem_append, List.mem_singleton] at h
      rcases h with h | h
      · exact Or.inl h
      · subst h; exact Or.inr (Nat.le_refl _)
    · simp only [createUrl] at h
      exact Or.inr (Nat.le_trans (Nat.le_succ _) h)

/-- One `_process_url` step only increases the id counter. -/
theorem crawlerProcessUrl_nextId_le
    (exec : FrontierDb → FrontierUrl → List FrontierUrl)
    (db : FrontierDb) (fu : FrontierUrl) (now : Nat) :
    db.nextId ≤ (crawlerProcessUrl exec db fu now).nextId := by
  have hbatch : ∀ l : List FrontierUrl,
      db.nextId ≤ (if l ≠ [] then createUrlsBatch db l now else db).nextId := by
    intro l
    split
    · exact createUrlsBatch_nextId_le _ db now
    · exact Nat.le_refl _
  unfold crawlerProcessUrl
  cases fu.id with
  | none => exact hbatch _
  | some i => exact hbatch _

/-- A `_process_url` step on an entry with id `i < nextId` leaves every
row with id `i` in status PROCESSED — whatever the strategy returned
and whatever the status was before. -/
theorem crawlerProcessUrl_establishes
    (exec : FrontierDb → FrontierUrl → List FrontierUrl)
    (db : FrontierDb) (fu : FrontierUrl) (now i : Nat)
    (hid : fu.id = some i) :
    idProcessed i (crawlerProcessUrl exec db fu now) := by
  unfold crawlerProcessUrl
  rw [hid]
  intro r hr hri
  simp only [updateUrlStatus, List.mem_map] at hr
  rcases hr with ⟨r0, _, hr0⟩
  by_cases h0 : r0.id = i
  · rw [← hr0]; simp [h0]
  · exfalso
    rw [← hr0] at hri
    simp only [h0, if_false] at hri

/-- A `_process_url` step preserves `idProcessed i` for ids below the
current counter (fresh rows get larger ids; the only status ever
written here is PROCESSED). -/
theorem crawlerProcessUrl_preserves
    (exec : FrontierDb → FrontierUrl → List FrontierUrl)
    (db : FrontierDb) (fu : FrontierUrl) (now i : Nat)
    (hfresh : i < db.nextId) (h : idProcessed i db) :
    idProcessed i (crawlerProcessUrl exec db fu now) := by
  have hdb1 : ∀ (l : List FrontierUrl),
      idProcessed i (if l ≠ [] then createUrlsBatch db l now else db) := by
    intro l
    split
    · intro r hr hri
      rcases createUrlsBatch_mem l db now r hr with hm | hm
      · exact h r hm hri
      · omega
    · exact h
  unfold crawlerProcessUrl
  cases fu.id with
  | none => exact hdb1 _
  | some j =>
    intro r hr hri
    simp only [updateUrlStatus, List.mem_map] at hr
    rcases hr with ⟨r0, hr0m, hr0⟩
    by_cases h0 : r0.id = j
    · rw [← hr0]; simp [h0]
    · rw [← hr0] at hri ⊢
      simp only [h0, if_false] at hri ⊢
      exact hdb1 _ r0 hr0m hri

/-- Batch processing preserves `idProcessed` for already-counted
ids. -/
theorem processBatch_preserves
    (exec : FrontierDb → FrontierUrl → List FrontierUrl)
    (batch : List FrontierUrl) :
    ∀ (db : FrontierDb) (now i : Nat), i < db.nextId → idProcessed i db →
      idProcessed i (processBatch exec db batch now) := by
  induction batch with
  | nil => intro db now i _ h; exact h
  | cons u us ih =>
    intro db now i hfresh h
    simp only [processBatch, List.foldl_cons]
    exact ih (crawlerProcessUrl exec db u now) now i
      (Nat.lt_of_lt_of_le hfresh (crawlerProcessUrl_nextId_le exec db u now))
      (crawlerProcessUrl_preserves exec db u now i hfresh h)

/-- Every member of a batch with a stored id below the counter ends the
batch in status PROCESSED: a failure at one URL never aborts processing
of the rest. -/
theorem processBatch_member
    (exec : FrontierDb → FrontierUrl → List FrontierUrl)
    (batch : List FrontierUrl) :
    ∀ (db : FrontierDb) (now : Nat) (u : FrontierUrl) (j : Nat),
      u ∈ batch → u.id = some j → j < db.nextId →
      idProcessed j (processBatch exec db batch now) := by
  induction batch with
  | nil => intro db now u j hu; exact absurd hu (List.not_mem_nil u)
  | cons v vs ih =>
    intro db now u j hu hid hfresh
    simp only [processBatch, List.foldl_cons]
    rcases List.mem_cons.mp hu with h | h
    · subst h
      exact processBatch_preserves exec vs (crawlerProcessUrl exec db u now)
        now j
        (Nat.lt_of_lt_of_le hfresh (crawlerProcessUrl_nextId_le exec db u now))
        (crawlerProcessUrl_establishes exec db u now j hid)
    · exact ih (crawlerProcessUrl exec db v now) now u j h hid
        (Nat.lt_of_lt_of_le hfresh (crawlerProcessUrl_nextId_le exec db v now))

/-- C1 (amended): a navigation timeout, missing response or non-200
status at a Type 1 URL is swallowed inside the strategy — `execute`
returns no URLs and the crawler marks the entry PROCESSED, not FAILED;
and the failure never aborts the run: every other URL of the batch is
still processed to its terminal status (here PROCESSED as well). -/
theorem fetch_failure_swallowed_run_continues
    (research : String → String → Bool) (pages : String → PageOutcome)
    (db : FrontierDb) (fu : FrontierUrl) (rest : List FrontierUrl)
    (i now : Nat) (hid : fu.id = some i) (hfresh : i < db.nextId)
    (hfail : fetchFailed (pages fu.url)) :
    type1Execute research pages (some db) fu = [] ∧
    idProcessed i
      (processBatch (fun d u => type1Execute research pages (some d) u)
        db (fu :: rest) now) ∧
    ∀ u ∈ rest, ∀ j, u.id = some j → j < db.nextId →
      idProcessed j
        (processBatch (fun d u => type1Execute research pages (some d) u)
          db (fu :: rest) now) := by
  refine ⟨type1Execute_fail_empty research pages (some db) fu hfail, ?_, ?_⟩
  · exact processBatch_member _ (fu :: rest) db now fu i
      (List.mem_cons_self fu rest) hid hfresh
  · intro u hu j hj hjf
    exact processBatch_member _ (fu :: rest) db now u j
      (List.mem_cons_of_mem fu hu) hj hjf

/-- C1 counterexample: after a navigation timeout at a Type 1 URL the
entry ends in status PROCESSED — not FAILED as the claim states — since
`Type1Strategy.execute` catches the exception and returns `[]`, and
`Crawler._process_url` then runs its success path. -/
theorem timeout_marks_processed_not_failed :
    ((crawlerProcessUrl
        (fun d u => type1Execute (fun _ _ => false) pagesC1 (some d) u)
        dbC1 fuC1 9).rows.map (fun r => (r.id, r.status))) =
      [(1, .processed), (2, .pending)] := by
  decide

/-- C1 witness: the amended theorem at the concrete two-URL batch with
a universal timeout. -/
theorem fetch_failure_swallowed_witness :
    type1Execute (fun _ _ => false) pagesC1 (some dbC1) fuC1 = [] ∧
    idProcessed 1
      (processBatch
        (fun d u => type1Execute (fun _ _ => false) pagesC1 (some d) u)
        dbC1 (fuC1 :: [fuC1b]) 9) ∧
    ∀ u ∈ [fuC1b], ∀ j, u.id = some j → j < dbC1.nextId →
      idProcessed j
        (processBatch
          (fun d u => type1Execute (fun _ _ => false) pagesC1 (some d) u)
          dbC1 (fuC1 :: [fuC1b]) 9) :=
  fetch_failure_swallowed_run_continues (fun _ _ => false) pagesC1 dbC1
    fuC1 [fuC1b] 1 9 rfl (by decide) trivial

end Doccrawl

namespace PyStr

/-- `Char.ofNat` evaluates to its argument on valid code points. -/
theorem charOfNatVal (n : Nat) (h : n.isValidChar) :
    (Char.ofNat n).toNat = n := by
  simp only [Char.ofNat, dif_pos h, Char.ofNatAux]
  rfl

/-- ASCII lowercasing is idempotent. -/
theorem toLower_toLower (c : Char) : c.toLower.toLower = c.toLower := by
  unfold Char.toLower
  by_cases h : c.toNat ≥ 65 ∧ c.toNat ≤ 90
  · have hv : (c.toNat + 32).isValidChar := Or.inl (by omega)
    rw [if_pos h, if_neg (fun hc => by rw [charOfNatVal _ hv] at hc; omega)]
  · rw [if_neg h, if_neg h]

/-- Lowercasing a list twice equals lowercasing once. -/
theorem map_toLower_toLower (l : List Char) :
    (l.map Char.toLower).map Char.toLower = l.map Char.toLower := by
  rw [List.map_map]
  exact List.map_congr_left (fun c _ => toLower_toLower c)

/-- Lowercasing preserves alphabetic characters. -/
theorem toLower_isAlpha (c : Char) (h : c.isAlpha = true) :
    c.toLower.isAlpha = true := by
  unfold Char.toLower
  by_cases hc : c.toNat ≥ 65 ∧ c.toNat ≤ 90
  · have hv : (c.toNat + 32).isValidChar := Or.inl (by omega)
    have hval := charOfNatVal _ hv
    rw [if_pos hc]
    have hl : (Char.ofNat (c.toNat + 32)).isLower = true := by
      simp only [Char.isLower, Bool.and_eq_true, decide_eq_true_eq]
      constructor
      · show 97 ≤ (Char.ofNat (c.toNat + 32)).toNat
        omega
      · show (Char.ofNat (c.toNat + 32)).toNat ≤ 122
        omega
    simp [Char.isAlpha, hl]
  · rw [if_neg hc]; exact h

/-- Lowercasing preserves scheme characters. -/
theorem toLower_isSchemeChar (c : Char) (h : isSchemeChar c = true) :
    isSchemeChar c.toLower = true := by
  unfold Char.toLower
  by_cases hc : c.toNat ≥ 65 ∧ c.toNat ≤ 90
  · have hv : (c.toNat + 32).isValidChar := Or.inl (by omega)
    have hval := charOfNatVal _ hv
    rw [if_pos hc]
    have hl : (Char.ofNat (c.toNat + 32)).isLower = true := by
      simp only [Char.isLower, Bool.and_eq_true, decide_eq_true_eq]
      constructor
      · show 97 ≤ (Char.ofNat (c.toNat + 32)).toNat
        omega
      · show (Char.ofNat (c.toNat + 32)).toNat ≤ 122
        omega
    simp [isSchemeChar, Char.isAlphanum, Char.isAlpha, hl]
  · rw [if_neg hc]; exact h

/-- A scheme character is never one of the characters `urllib` strips
or splits on. -/
theorem isSchemeChar_ne (c x : Char) (h : isSchemeChar c = true)
    (hx : isSchemeChar x = false) : c ≠ x := by
  intro he
  rw [he] at h
  rw [h] at hx
  cases hx

/-- An alphabetic character is never one with `isAlpha = false`. -/
theorem isAlpha_ne (c x : Char) (h : c.isAlpha = true)
    (hx : x.isAlpha = false) : c ≠ x := by
  intro he
  rw [he] at h
  rw [h] at hx
  cases hx

/-- Scheme characters are not removed by `removeUnsafe`. -/
theorem isUnsafe_false_of_schemeChar (c : Char)
    (h : isSchemeChar c = true) : isUnsafe c = false := by
  simp only [isUnsafe, Bool.or_eq_false_iff]
  refine ⟨⟨?_, ?_⟩, ?_⟩ <;>
    exact beq_eq_false_iff_ne.mpr (isSchemeChar_ne c _ h (by decide))

/-- Alphabetic characters are not removed by `removeUnsafe`. -/
theorem isUnsafe_false_of_alpha (c : Char) (h : c.isAlpha = true) :
    isUnsafe c = false := by
  simp only [isUnsafe, Bool.or_eq_false_iff]
  refine ⟨⟨?_, ?_⟩, ?_⟩ <;>
    exact beq_eq_false_iff_ne.mpr (isAlpha_ne c _ h (by decide))

/-- `splitFirst` finds nothing iff the delimiter is absent. -/
theorem splitFirst_eq_none (d : Char) (l : List Char) (h : d ∉ l) :
    splitFirst d l = none := by
  induction l with
  | nil => rfl
  | cons c cs ih =>
    have hcd : ¬(c = d) := fun he => h (he ▸ List.mem_cons_self c cs)
    simp only [splitFirst, if_neg hcd,
      ih (fun hm => h (List.mem_cons_of_mem c hm))]

/-- `splitFirst` splits at the first occurrence. -/
theorem splitFirst_append (d : Char) (a b : List Char) (h : d ∉ a) :
    splitFirst d (a ++ d :: b) = some (a, b) := by
  induction a with
  | nil => simp [splitFirst]
  | cons c cs ih =>
    have hcd : ¬(c = d) := fun he => h (he ▸ List.mem_cons_self c cs)
    have ih' := ih (fun hm => h (List.mem_cons_of_mem c hm))
    simp only [List.cons_append, splitFirst, if_neg hcd, List.append_eq,
      ih']

/-- Inversion for `splitFirst`: the parts reassemble the input, and the
delimiter does not occur in the left part. -/
theorem splitFirst_eq_some (d : Char) (l : List Char) :
    ∀ x y, splitFirst d l = some (x, y) → l = x ++ d :: y ∧ d ∉ x := by
  induction l with
  | nil => intro x y h; cases h
  | cons c cs ih =>
    intro x y h
    by_cases hcd : c = d
    · subst hcd
      simp [splitFirst] at h
      obtain ⟨hx, hy⟩ := h
      subst hx; subst hy
      exact ⟨rfl, List.not_mem_nil c⟩
    · simp only [splitFirst, if_neg hcd] at h
      cases hm : splitFirst d cs with
      | none => rw [hm] at h; cases h
      | some ab =>
        obtain ⟨a0, b0⟩ := ab
        rw [hm] at h
        simp only [Option.some_inj, Prod.mk.injEq] at h
        obtain ⟨hx, hy⟩ := h
        subst hx; subst hy
        obtain ⟨h1, h2⟩ := ih a0 b0 hm
        refine ⟨by rw [h1]; rfl, ?_⟩
        intro hm2
        rcases List.mem_cons.mp hm2 with he | hin
        · exact hcd he.symm
        · exact h2 hin

/-- `takeWhile`/`dropWhile` on a concatenation whose first part
satisfies the predicate and whose second part is empty or starts with a
failing character. -/
theorem takeWhile_dropWhile_append (p : Char → Bool) (a b : List Char)
    (ha : ∀ c ∈ a, p c = true)
    (hb : b = [] ∨ ∃ x xs, b = x :: xs ∧ p x = false) :
    (a ++ b).takeWhile p = a ∧ (a ++ b).dropWhile p = b := by
  induction a with
  | nil =>
    rcases hb with hb | ⟨x, xs, hb, hx⟩
    · subst hb; exact ⟨rfl, rfl⟩
    · subst hb
      simp [List.takeWhile, List.dropWhile, hx]
  | cons c cs ih =>
    have hc : p c = true := ha c (List.mem_cons_self c cs)
    have := ih (fun c' hc' => ha c' (List.mem_cons_of_mem c hc'))
    simp [List.takeWhile, List.dropWhile, hc, this.1, this.2]

/-- `removeUnsafe` is the identity on lists free of unsafe bytes. -/
theorem removeUnsafe_eq_self (l : List Char)
    (h : ∀ c ∈ l, isUnsafe c = false) : removeUnsafe l = l :=
  List.filter_eq_self.mpr (fun c hc => by simp [h c hc])

/-- `dropWhile` is the identity when no element satisfies `p`. -/
theorem dropWhile_eq_self_of (p : Char → Bool) (l : List Char)
    (h : ∀ c ∈ l, p c = false) : l.dropWhile p = l := by
  cases l with
  | nil => rfl
  | cons c cs => simp [List.dropWhile, h c (List.mem_cons_self c cs)]

/-- `str.strip()` is the identity on whitespace-free strings. -/
theorem pyStrip_eq_self (l : List Char)
    (h : ∀ c ∈ l, isPySpace c = false) : pyStrip l = l := by
  unfold pyStrip
  rw [dropWhile_eq_self_of _ _ h,
    dropWhile_eq_self_of _ _ (fun c hc => h c (List.mem_reverse.mp hc)),
    List.reverse_reverse]

end PyStr

namespace Doccrawl

open PyStr PyUrl

/-! Lemmas about the urllib model, used by the normalizer claims. -/

theorem urlsplitRest_assembled (sch nl p q f : List Char)
    (hnlp : ∀ c ∈ nl, notNetlocDelim c = true)
    (hbr : BracketOk nl)
    (hp0 : p = [] ∨ p.head? = some '/')
    (hph : '#' ∉ p) (hpq : '?' ∉ p)
    (hqh : '#' ∉ q) :
    urlsplitRest sch ('/' :: '/' :: (nl ++ p ++ qpart q ++ fpart f)) =
      Except.ok ⟨sch, nl, p, q, f⟩ := by
  have hb : (p ++ (qpart q ++ fpart f)) = [] ∨
      ∃ x xs, p ++ (qpart q ++ fpart f) = x :: xs ∧
        notNetlocDelim x = false := by
    rcases hp0 with hp | hp
    · subst hp
      by_cases hq : q = []
      · by_cases hf : f = []
        · left; simp [qpart, fpart, hq, hf]
        · right
          exact ⟨'#', f, by simp [qpart, fpart, hq, hf], by decide⟩
      · right
        exact ⟨'?', q ++ fpart f, by simp [qpart, hq], by decide⟩
    · cases p with
      | nil => cases hp
      | cons a as =>
        have ha : a = '/' := by simpa using hp
        subst ha
        exact Or.inr ⟨'/', as ++ (qpart q ++ fpart f), by simp, by decide⟩
  have etw := takeWhile_dropWhile_append notNetlocDelim nl
    (p ++ (qpart q ++ fpart f)) hnlp hb
  obtain ⟨e3, e4⟩ := etw
  have hqnot : '#' ∉ p ++ qpart q := by
    intro hm
    rcases List.mem_append.mp hm with hm | hm
    · exact hph hm
    · unfold qpart at hm
      split at hm
      · cases hm
      · rcases List.mem_cons.mp hm with he | hin
        · cases he
        · exact hqh hin
  have e5 : splitFirst '#' (p ++ (qpart q ++ fpart f)) =
      (if f = [] then none else some (p ++ qpart q, f)) := by
    by_cases hf : f = []
    · subst hf
      rw [if_pos rfl]
      apply splitFirst_eq_none
      simpa [fpart] using hqnot
    · rw [if_neg hf]
      have : p ++ (qpart q ++ fpart f) = (p ++ qpart q) ++ '#' :: f := by
        simp [fpart, hf, List.append_assoc]
      rw [this]
      exact splitFirst_append '#' _ f hqnot
  have e6 : splitFirst '?' (p ++ qpart q) =
      (if q = [] then none else some (p, q)) := by
    by_cases hq : q = []
    · subst hq
      rw [if_pos rfl]
      apply splitFirst_eq_none
      simpa [qpart] using hpq
    · rw [if_neg hq]
      have : p ++ qpart q = p ++ '?' :: q := by simp [qpart, hq]
      rw [this]
      exact splitFirst_append '?' _ q hpq
  have hbr' : ((nl.contains '[' && !nl.contains ']') ||
      (nl.contains ']' && !nl.contains '[')) = false := hbr
  have hbrp : ('[' ∈ nl → ']' ∈ nl) ∧ (']' ∈ nl → '[' ∈ nl) := by
    simpa [BracketOk] using hbr
  by_cases hf : f = []
  · subst hf
    rw [if_pos rfl] at e5
    have hF : fpart ([] : List Char) = [] := rfl
    simp only [hF, List.append_nil] at e3 e4 e5 ⊢
    by_cases hq : q = []
    · subst hq
      rw [if_pos rfl] at e6
      have hQ : qpart ([] : List Char) = [] := rfl
      simp only [hQ, List.append_nil, List.nil_append] at e3 e4 e5 e6 ⊢
      unfold urlsplitRest
      simp [e3, e4, e5, e6, hbr']
      exact hbrp
    · rw [if_neg hq] at e6
      unfold urlsplitRest
      simp [e3, e4, e5, e6, hbr']
      exact hbrp
  · rw [if_neg hf] at e5
    by_cases hq : q = []
    · subst hq
      rw [if_pos rfl] at e6
      have hQ : qpart ([] : List Char) = [] := rfl
      simp only [hQ, List.append_nil, List.nil_append] at e3 e4 e5 e6 ⊢
      unfold urlsplitRest
      simp [e3, e4, e5, e6, hbr']
      exact hbrp
    · rw [if_neg hq] at e6
      unfold urlsplitRest
      simp [e3, e4, e5, e6, hbr']
      exact hbrp

theorem urlsplit_assembled (s nl p q f d : List Char)
    (hs : ValidScheme s)
    (hnlp : ∀ c ∈ nl, notNetlocDelim c = true)
    (hbr : BracketOk nl)
    (hp0 : p = [] ∨ p.head? = some '/')
    (hph : '#' ∉ p) (hpq : '?' ∉ p)
    (hqh : '#' ∉ q)
    (hcl : ∀ c ∈ nl ++ p ++ q ++ f, isUnsafe c = false) :
    urlsplitE (assembleUrl s nl p q f) d =
      Except.ok ⟨s.map Char.toLower, nl, p, q, f⟩ := by
  obtain ⟨c, cs, rfl⟩ : ∃ c cs, s = c :: cs := by
    cases s with
    | nil => exact absurd hs (by simp [ValidScheme])
    | cons a as => exact ⟨a, as, rfl⟩
  obtain ⟨hca, hcs⟩ := hs
  have hclnl : ∀ x ∈ nl, isUnsafe x = false :=
    fun x hx => hcl x (by simp [hx])
  have hclp : ∀ x ∈ p, isUnsafe x = false :=
    fun x hx => hcl x (by simp [hx])
  have hclq : ∀ x ∈ q, isUnsafe x = false :=
    fun x hx => hcl x (by simp [hx])
  have hclf : ∀ x ∈ f, isUnsafe x = false :=
    fun x hx => hcl x (by simp [hx])
  have hqp : ∀ x ∈ qpart q, isUnsafe x = false := by
    intro x hx
    unfold qpart at hx
    split at hx
    · cases hx
    · rcases List.mem_cons.mp hx with rfl | hx
      · decide
      · exact hclq x hx
  have hfp : ∀ x ∈ fpart f, isUnsafe x = false := by
    intro x hx
    unfold fpart at hx
    split at hx
    · cases hx
    · rcases List.mem_cons.mp hx with rfl | hx
      · decide
      · exact hclf x hx
  have hclean : ∀ x ∈ assembleUrl (c :: cs) nl p q f, isUnsafe x = false := by
    intro x hx
    simp only [assembleUrl, List.mem_append, List.mem_cons] at hx
    rcases hx with (rfl | hx) | rfl | rfl | rfl | ((hx | hx) | hx) | hx
    · exact isUnsafe_false_of_alpha x hca
    · exact isUnsafe_false_of_schemeChar x (List.all_eq_true.mp hcs x hx)
    · decide
    · decide
    · decide
    · exact hclnl x hx
    · exact hclp x hx
    · exact hqp x hx
    · exact hfp x hx
  have hcolon : ':' ∉ (c :: cs) := by
    intro hm
    rcases List.mem_cons.mp hm with he | hin
    · exact isAlpha_ne c ':' hca (by decide) he.symm
    · exact isSchemeChar_ne _ ':' (List.all_eq_true.mp hcs _ hin)
        (by decide) rfl
  have e1 : removeUnsafe (assembleUrl (c :: cs) nl p q f) =
      assembleUrl (c :: cs) nl p q f := removeUnsafe_eq_self _ hclean
  have e2 : splitFirst ':' (assembleUrl (c :: cs) nl p q f) =
      some (c :: cs, '/' :: '/' :: (nl ++ p ++ qpart q ++ fpart f)) := by
    unfold assembleUrl
    exact splitFirst_append ':' (c :: cs) _ hcolon
  have hcond : c.isAlpha = true ∧ cs.all isSchemeChar = true := ⟨hca, hcs⟩
  unfold urlsplitE
  rw [e1]
  simp only [e2, if_pos hcond]
  exact urlsplitRest_assembled _ nl p q f hnlp hbr hp0 hph hpq hqh

theorem splitFirst_some_of_mem (d : Char) (l : List Char) (h : d ∈ l) :
    ∃ x y, splitFirst d l = some (x, y) := by
  induction l with
  | nil => cases h
  | cons c cs ih =>
    by_cases hcd : c = d
    · subst hcd
      exact ⟨[], cs, by simp [splitFirst]⟩
    · have hm : d ∈ cs := by
        rcases List.mem_cons.mp h with he | hin
        · exact absurd he.symm hcd
        · exact hin
      obtain ⟨x, y, hxy⟩ := ih hm
      exact ⟨c :: x, y, by simp [splitFirst, if_neg hcd, hxy]⟩

theorem splitLastAt_eq_some (d : Char) (l pre seg : List Char)
    (h : splitLastAt d l = some (pre, seg)) :
    l = pre ++ d :: seg ∧ d ∉ seg := by
  unfold splitLastAt at h
  cases hm : splitFirst d l.reverse with
  | none => rw [hm] at h; cases h
  | some ab =>
    obtain ⟨a0, b0⟩ := ab
    rw [hm] at h
    simp only [Option.some_inj, Prod.mk.injEq] at h
    obtain ⟨h1, h2⟩ := h
    obtain ⟨hl, hnm⟩ := splitFirst_eq_some d l.reverse a0 b0 hm
    have : l = b0.reverse ++ d :: a0.reverse := by
      have := congrArg List.reverse hl
      simpa [List.reverse_append] using this
    subst h1; subst h2
    refine ⟨this, fun hmem => hnm ?_⟩
    simpa using hmem

theorem splitLastAt_append (d : Char) (pre seg : List Char)
    (h : d ∉ seg) : splitLastAt d (pre ++ d :: seg) = some (pre, seg) := by
  unfold splitLastAt
  have hrev : (pre ++ d :: seg).reverse = seg.reverse ++ d :: pre.reverse := by
    simp [List.reverse_append]
  rw [hrev, splitFirst_append d _ _ (by simpa using h)]
  simp

theorem splitLastAt_eq_none_of (d : Char) (l : List Char) (h : d ∉ l) :
    splitLastAt d l = none := by
  unfold splitLastAt
  rw [splitFirst_eq_none d _ (by simpa using h)]

theorem splitFirst_none_not_mem (d : Char) (l : List Char)
    (h : splitFirst d l = none) : d ∉ l := by
  intro hm
  obtain ⟨x, y, hxy⟩ := splitFirst_some_of_mem d l hm
  rw [h] at hxy
  cases hxy

theorem splitParams_of_no_semi (p : List Char) (h : ';' ∉ p) :
    splitParams p = (p, []) := by
  cases hm : splitLastAt '/' p with
  | none =>
    simp [splitParams, hm, splitFirst_eq_none ';' p h]
  | some ps =>
    obtain ⟨pre, seg⟩ := ps
    obtain ⟨hp, _⟩ := splitLastAt_eq_some '/' p pre seg hm
    have hseg : ';' ∉ seg := fun hx => h (by rw [hp]; simp [hx])
    simp [splitParams, hm, splitFirst_eq_none ';' seg hseg]

theorem splitParams_stable (x : List Char) :
    splitParams (splitParams x).1 = ((splitParams x).1, []) := by
  cases hm : splitLastAt '/' x with
  | none =>
    have hslash : '/' ∉ x := by
      intro hx
      obtain ⟨a, b, hab⟩ := splitFirst_some_of_mem '/' x.reverse (by simpa using hx)
      unfold splitLastAt at hm
      rw [hab] at hm
      cases hm
    cases hs : splitFirst ';' x with
    | none =>
      simp [splitParams, hm, hs, splitLastAt_eq_none_of '/' x hslash]
    | some ab =>
      obtain ⟨a, b⟩ := ab
      obtain ⟨hx, hnm⟩ := splitFirst_eq_some ';' x a b hs
      have hsl : '/' ∉ a := fun hmem => hslash (by rw [hx]; simp [hmem])
      simp [splitParams, hm, hs, splitLastAt_eq_none_of '/' a hsl,
        splitFirst_eq_none ';' a hnm]
  | some ps =>
    obtain ⟨pre, seg⟩ := ps
    obtain ⟨hp, hns⟩ := splitLastAt_eq_some '/' x pre seg hm
    cases hs : splitFirst ';' seg with
    | none =>
      simp [splitParams, hm, hs]
    | some ab =>
      obtain ⟨a, b⟩ := ab
      obtain ⟨hseg, hna⟩ := splitFirst_eq_some ';' seg a b hs
      have hsla : '/' ∉ a := fun hmem => hns (by rw [hseg]; simp [hmem])
      simp [splitParams, hm, hs, splitLastAt_append '/' pre a hsla,
        splitFirst_eq_none ';' a hna]

theorem urlparse_assembled (s nl p q f d : List Char)
    (hs : ValidScheme s)
    (hnlp : ∀ c ∈ nl, notNetlocDelim c = true)
    (hbr : BracketOk nl)
    (hp0 : p = [] ∨ p.head? = some '/')
    (hph : '#' ∉ p) (hpq : '?' ∉ p)
    (hpp : splitParams p = (p, []))
    (hqh : '#' ∉ q)
    (hcl : ∀ c ∈ nl ++ p ++ q ++ f, isUnsafe c = false) :
    urlparseE (assembleUrl s nl p q f) d =
      Except.ok ⟨s.map Char.toLower, nl, p, [], q, f⟩ := by
  unfold urlparseE
  rw [urlsplit_assembled s nl p q f d hs hnlp hbr hp0 hph hpq hqh hcl]
  simp [hpp]

theorem urlunparse_assembled (s nl p q f : List Char)
    (hsne : s ≠ [])
    (hnl : nl ≠ [])
    (hp0 : p = [] ∨ p.head? = some '/') :
    urlunparse s nl p [] q f = assembleUrl s nl p q f := by
  unfold urlunparse urlunsplit assembleUrl qpart fpart
  rcases hp0 with hp | hp
  · subst hp
    by_cases hq : q = [] <;> by_cases hf : f = [] <;>
      simp [hsne, hnl, hq, hf, List.append_assoc]
  · obtain ⟨a, as, rfl⟩ : ∃ a as, p = a :: as := by
      cases p with
      | nil => cases hp
      | cons a as => exact ⟨a, as, rfl⟩
    have ha : a = '/' := by simpa using hp
    subst ha
    by_cases hq : q = [] <;> by_cases hf : f = [] <;>
      simp [hsne, hnl, hq, hf, List.append_assoc]

theorem usesRelative_subset_usesNetloc :
    ∀ x ∈ usesRelative, x ∈ usesNetloc := by decide

theorem urljoin_assembled (base s nl p q f : List Char)
    (hs : ValidScheme s)
    (hnl : nl ≠ [])
    (hnlp : ∀ c ∈ nl, notNetlocDelim c = true)
    (hbr : BracketOk nl)
    (hp0 : p = [] ∨ p.head? = some '/')
    (hph : '#' ∉ p) (hpq : '?' ∉ p)
    (hpp : splitParams p = (p, []))
    (hqh : '#' ∉ q)
    (hcl : ∀ c ∈ nl ++ p ++ q ++ f, isUnsafe c = false)
    (hbase : base = [] ∨ ∃ bp, urlparseE base [] = Except.ok bp) :
    urljoinE base (assembleUrl s nl p q f) =
        Except.ok (assembleUrl s nl p q f) ∨
    urljoinE base (assembleUrl s nl p q f) =
        Except.ok (assembleUrl (s.map Char.toLower) nl p q f) := by
  have hsne : s ≠ [] := by
    cases s with
    | nil => exact absurd hs (by simp [ValidScheme])
    | cons a as => simp
  have hane : assembleUrl s nl p q f ≠ [] := by
    cases s with
    | nil => exact absurd hs (by simp [ValidScheme])
    | cons a as => simp [assembleUrl]
  by_cases hb0 : base = []
  · left
    unfold urljoinE
    rw [if_pos hb0]
  · rcases hbase with hb | ⟨bp, hbp⟩
    · exact absurd hb hb0
    · have hup := urlparse_assembled s nl p q f bp.scheme hs hnlp hbr hp0
        hph hpq hpp hqh hcl
      by_cases hc1 : List.map Char.toLower s ≠ bp.scheme ∨
          List.map Char.toLower s ∉ usesRelative
      · left
        simp only [urljoinE, if_neg hb0, if_neg hane, hbp, hup]
        rw [if_pos hc1]
      · right
        push_neg at hc1
        obtain ⟨hceq, hcmem⟩ := hc1
        have hnet : List.map Char.toLower s ∈ usesNetloc :=
          usesRelative_subset_usesNetloc _ hcmem
        have hlne : List.map Char.toLower s ≠ [] := by
          simpa using hsne
        simp only [urljoinE, if_neg hb0, if_neg hane, hbp, hup]
        rw [if_neg (show ¬(List.map Char.toLower s ≠ bp.scheme ∨
          List.map Char.toLower s ∉ usesRelative) from by
            push_neg
            exact ⟨hceq, hcmem⟩)]
        rw [if_pos ⟨hnet, hnl⟩]
        exact congrArg Except.ok
          (urlunparse_assembled (List.map Char.toLower s) nl p q f hlne
            hnl hp0)

theorem validScheme_lower (s : List Char) (h : ValidScheme s) :
    ValidScheme (s.map Char.toLower) := by
  cases s with
  | nil => cases h
  | cons c cs =>
    obtain ⟨h1, h2⟩ := h
    refine ⟨toLower_isAlpha c h1, ?_⟩
    rw [List.all_eq_true] at h2 ⊢
    intro x hx
    rw [List.mem_map] at hx
    obtain ⟨y, hy, rfl⟩ := hx
    exact toLower_isSchemeChar y (h2 y hy)

theorem normalize_assembled (base s nl p q f : List Char)
    (hs : ValidScheme s)
    (hnl : nl ≠ [])
    (hnlp : ∀ c ∈ nl, notNetlocDelim c = true)
    (hbr : BracketOk nl)
    (hp0 : p = [] ∨ p.head? = some '/')
    (hph : '#' ∉ p) (hpq : '?' ∉ p)
    (hpp : splitParams p = (p, []))
    (hqh : '#' ∉ q)
    (hcl : ∀ c ∈ nl ++ p ++ q ++ f, isUnsafe c = false)
    (hstrip : pyStrip (assembleUrl s nl p q f) = assembleUrl s nl p q f)
    (hjs : "javascript:".toList.isPrefixOf (assembleUrl s nl p q f) = false)
    (hmt : "mailto:".toList.isPrefixOf (assembleUrl s nl p q f) = false)
    (htl : "tel:".toList.isPrefixOf (assembleUrl s nl p q f) = false)
    (hbase : base = [] ∨ ∃ bp, urlparseE base [] = Except.ok bp) :
    normalizeUrlL (assembleUrl s nl p q f) base =
      some (assembleUrl (s.map Char.toLower) nl p q []) := by
  have hsne : s ≠ [] := by
    cases s with
    | nil => exact absurd hs (by simp [ValidScheme])
    | cons a as => simp
  have hane : assembleUrl s nl p q f ≠ [] := by
    cases s with
    | nil => exact absurd hs (by simp [ValidScheme])
    | cons a as => simp [assembleUrl]
  have hlne : List.map Char.toLower s ≠ [] := by simpa using hsne
  have hguard : ¬(assembleUrl s nl p q f = [] ∨
      "javascript:".toList.isPrefixOf (assembleUrl s nl p q f) = true ∨
      "mailto:".toList.isPrefixOf (assembleUrl s nl p q f) = true ∨
      "tel:".toList.isPrefixOf (assembleUrl s nl p q f) = true) := by
    rintro (h | h | h | h)
    · exact hane h
    · rw [hjs] at h; cases h
    · rw [hmt] at h; cases h
    · rw [htl] at h; cases h
  have hfinal : ∀ t : List Char,
      t = List.map Char.toLower s →
      some (t ++ ':' :: '/' :: '/' ::
        (nl ++ p ++ (if q ≠ [] then '?' :: q else []))) =
      some (assembleUrl (List.map Char.toLower s) nl p q []) := by
    intro t ht
    subst ht
    by_cases hq : q = [] <;>
      simp [assembleUrl, qpart, fpart, hq, List.append_assoc]
  rcases urljoin_assembled base s nl p q f hs hnl hnlp hbr hp0 hph hpq hpp
      hqh hcl hbase with hj | hj
  · have hup := urlparse_assembled s nl p q f [] hs hnlp hbr hp0
      hph hpq hpp hqh hcl
    simp only [normalizeUrlL, hstrip, if_neg hguard, hj, hup]
    rw [if_neg (by
      push_neg
      exact ⟨hlne, hnl⟩)]
    exact hfinal _ rfl
  · have hup := urlparse_assembled (List.map Char.toLower s) nl p q f []
      (validScheme_lower s hs) hnlp hbr hp0 hph hpq hpp hqh hcl
    rw [map_toLower_toLower] at hup
    simp only [normalizeUrlL, hstrip, if_neg hguard, hj, hup]
    rw [if_neg (by
      push_neg
      exact ⟨hlne, hnl⟩)]
    exact hfinal _ rfl

theorem head_append_ne_nil (x z : List Char) (h : x ≠ []) :
    (x ++ z).head? = x.head? := by
  cases x with
  | nil => exact absurd rfl h
  | cons c cs => rfl

theorem notNetlocDelim_false (c : Char) (h : notNetlocDelim c = false) :
    c = '/' ∨ c = '?' ∨ c = '#' := by
  simp only [notNetlocDelim, Bool.not_eq_false', Bool.or_eq_true,
    beq_iff_eq] at h
  tauto

theorem dropWhile_head_false (pp : Char → Bool) (l : List Char) :
    l.dropWhile pp = [] ∨
      ∃ x xs, l.dropWhile pp = x :: xs ∧ pp x = false := by
  induction l with
  | nil => left; rfl
  | cons c cs ih =>
    by_cases hc : pp c = true
    · simpa [List.dropWhile, hc] using ih
    · right
      exact ⟨c, cs, by simp [List.dropWhile, hc], by simpa using hc⟩

theorem path_head_slash (rest2 : List Char) (a : Char)
    (hh : rest2.head? = some a)
    (hr2head : rest2 = [] ∨
      ∃ x xs, rest2 = x :: xs ∧ notNetlocDelim x = false)
    (hnq : a ≠ '?') (hnf : a ≠ '#') : a = '/' := by
  rcases hr2head with h0 | ⟨x, xs, hx, hpx⟩
  · rw [h0] at hh; cases hh
  · rw [hx] at hh
    have hxa : x = a := by simpa using hh
    subst hxa
    rcases notNetlocDelim_false x hpx with h | h | h
    · exact h
    · exact absurd h hnq
    · exact absurd h hnf

theorem urlsplitRest_ok_shape (sch rest : List Char) (r : SplitRes)
    (h : urlsplitRest sch rest = Except.ok r)
    (hrc : ∀ c ∈ rest, isUnsafe c = false)
    (hnlne : r.netloc ≠ []) :
    r.scheme = sch ∧
    (∀ c ∈ r.netloc, notNetlocDelim c = true) ∧ BracketOk r.netloc ∧
    (r.path = [] ∨ r.path.head? = some '/') ∧
    '#' ∉ r.path ∧ '?' ∉ r.path ∧ '#' ∉ r.query ∧
    (∀ c ∈ r.netloc, isUnsafe c = false) ∧
    (∀ c ∈ r.path, isUnsafe c = false) ∧
    (∀ c ∈ r.query, isUnsafe c = false) := by
  unfold urlsplitRest at h
  by_cases h2s : rest.take 2 = ['/', '/']
  case neg =>
    exfalso
    simp only [if_neg h2s] at h
    simp only [List.contains_nil, Bool.false_and, Bool.and_false,
      Bool.or_self, Bool.false_eq_true, if_false] at h
    rcases hfm : splitFirst '#' rest with _ | ⟨pa, f0⟩ <;>
      simp only [hfm] at h
    · rcases hqm : splitFirst '?' rest with _ | ⟨p0, q0⟩ <;>
        simp only [hqm] at h <;> (cases h; exact hnlne rfl)
    · rcases hqm : splitFirst '?' pa with _ | ⟨p0, q0⟩ <;>
        simp only [hqm] at h <;> (cases h; exact hnlne rfl)
  case pos =>
    simp only [if_pos h2s] at h
    set rest' := rest.drop 2 with hrest'
    set nl := rest'.takeWhile notNetlocDelim with hnl
    set rest2 := rest'.dropWhile notNetlocDelim with hrest2
    have hrc' : ∀ c ∈ rest', isUnsafe c = false :=
      fun c hc => hrc c (List.drop_subset 2 rest hc)
    have hnlsub : ∀ c ∈ nl, isUnsafe c = false :=
      fun c hc => hrc' c ((List.takeWhile_sublist _).subset hc)
    have hr2sub : ∀ c ∈ rest2, isUnsafe c = false :=
      fun c hc => hrc' c ((List.dropWhile_sublist _).subset hc)
    have hr2head := dropWhile_head_false notNetlocDelim rest'
    rw [← hrest2] at hr2head
    by_cases hbc : ((nl.contains '[' && !nl.contains ']') ||
        (nl.contains ']' && !nl.contains '[')) = true
    · rw [if_pos hbc] at h
      cases h
    · rw [if_neg hbc] at h
      have hbr : BracketOk nl := Bool.eq_false_iff.mpr hbc
      rcases hfm : splitFirst '#' rest2 with _ | ⟨pa, f0⟩
      · -- no fragment separator
        have hnf : '#' ∉ rest2 := splitFirst_none_not_mem '#' rest2 hfm
        simp only [hfm] at h
        rcases hqm : splitFirst '?' rest2 with _ | ⟨p0, q0⟩
        · have hnq : '?' ∉ rest2 := splitFirst_none_not_mem '?' rest2 hqm
          simp only [hqm] at h
          cases h
          refine ⟨rfl, fun c hc => List.mem_takeWhile_imp hc, hbr, ?_, hnf,
            hnq, by simp, hnlsub, hr2sub, by simp⟩
          cases hpe : rest2 with
          | nil => left; rfl
          | cons a as =>
            right
            have ha : a = '/' := path_head_slash rest2 a (by rw [hpe]; rfl)
              hr2head
              (fun he => hnq (he ▸ hpe ▸ List.mem_cons_self a as))
              (fun he => hnf (he ▸ hpe ▸ List.mem_cons_self a as))
            simp [ha]
        · obtain ⟨hre, hnmem⟩ := splitFirst_eq_some '?' rest2 p0 q0 hqm
          simp only [hqm] at h
          cases h
          have hp0sub : ∀ c ∈ p0, c ∈ rest2 := fun c hc => by
            rw [hre]; simp [hc]
          have hq0sub : ∀ c ∈ q0, c ∈ rest2 := fun c hc => by
            rw [hre]; simp [hc]
          refine ⟨rfl, fun c hc => List.mem_takeWhile_imp hc, hbr, ?_,
            fun hc => hnf (hp0sub _ hc), hnmem,
            fun hc => hnf (hq0sub _ hc), hnlsub,
            fun c hc => hr2sub c (hp0sub c hc),
            fun c hc => hr2sub c (hq0sub c hc)⟩
          cases hpe : p0 with
          | nil => left; rfl
          | cons a as =>
            right
            have hh : rest2.head? = some a := by
              rw [hre, hpe]
              rfl
            have ha : a = '/' := path_head_slash rest2 a hh hr2head
              (fun he => hnmem (he ▸ hpe ▸ List.mem_cons_self a as))
              (fun he => hnf (hp0sub '#'
                (he ▸ hpe ▸ List.mem_cons_self a as)))
            simp [ha]
      · -- fragment separator present
        obtain ⟨hre2, hnfpa⟩ := splitFirst_eq_some '#' rest2 pa f0 hfm
        simp only [hfm] at h
        have hpasub : ∀ c ∈ pa, c ∈ rest2 := fun c hc => by
          rw [hre2]; simp [hc]
        rcases hqm : splitFirst '?' pa with _ | ⟨p0, q0⟩
        · have hnq : '?' ∉ pa := splitFirst_none_not_mem '?' pa hqm
          simp only [hqm] at h
          cases h
          refine ⟨rfl, fun c hc => List.mem_takeWhile_imp hc, hbr, ?_,
            hnfpa, hnq, by simp, hnlsub,
            fun c hc => hr2sub c (hpasub c hc), by simp⟩
          cases hpe : pa with
          | nil => left; rfl
          | cons a as =>
            right
            have hh : rest2.head? = some a := by
              rw [hre2, hpe]
              rfl
            have ha : a = '/' := path_head_slash rest2 a hh hr2head
              (fun he => hnq (he ▸ hpe ▸ List.mem_cons_self a as))
              (fun he => hnfpa (he ▸ hpe ▸ List.mem_cons_self a as))
            simp [ha]
        · obtain ⟨hre, hnmem⟩ := splitFirst_eq_some '?' pa p0 q0 hqm
          simp only [hqm] at h
          cases h
          have hp0sub : ∀ c ∈ p0, c ∈ pa := fun c hc => by
            rw [hre]; simp [hc]
          have hq0sub : ∀ c ∈ q0, c ∈ pa := fun c hc => by
            rw [hre]; simp [hc]
          refine ⟨rfl, fun c hc => List.mem_takeWhile_imp hc, hbr, ?_,
            fun hc => hnfpa (hp0sub _ hc), hnmem,
            fun hc => hnfpa (hq0sub _ hc), hnlsub,
            fun c hc => hr2sub c (hpasub c (hp0sub c hc)),
            fun c hc => hr2sub c (hpasub c (hq0sub c hc))⟩
          cases hpe : p0 with
          | nil => left; rfl
          | cons a as =>
            right
            have hh : rest2.head? = some a := by
              rw [hre2, hre, hpe]
              rfl
            have ha : a = '/' := path_head_slash rest2 a hh hr2head
              (fun he => hnmem (he ▸ hpe ▸ List.mem_cons_self a as))
              (fun he => hnfpa (hp0sub '#'
                (he ▸ hpe ▸ List.mem_cons_self a as)))
            simp [ha]

theorem urlsplitE_ok_shape (a : List Char) (r : SplitRes)
    (h : urlsplitE a [] = Except.ok r) (hsch : r.scheme ≠ [])
    (hnlne : r.netloc ≠ []) :
    ValidScheme r.scheme ∧ List.map Char.toLower r.scheme = r.scheme ∧
    (∀ c ∈ r.netloc, notNetlocDelim c = true) ∧ BracketOk r.netloc ∧
    (r.path = [] ∨ r.path.head? = some '/') ∧
    '#' ∉ r.path ∧ '?' ∉ r.path ∧ '#' ∉ r.query ∧
    (∀ c ∈ r.netloc, isUnsafe c = false) ∧
    (∀ c ∈ r.path, isUnsafe c = false) ∧
    (∀ c ∈ r.query, isUnsafe c = false) := by
  have hu : ∀ c ∈ removeUnsafe a, isUnsafe c = false := by
    intro c hc
    have := (List.mem_filter.mp hc).2
    simpa using this
  unfold urlsplitE at h
  rcases hsp : splitFirst ':' (removeUnsafe a) with _ | ⟨before, after⟩
  · simp only [hsp] at h
    obtain ⟨hsc, _⟩ := urlsplitRest_ok_shape [] (removeUnsafe a) r h hu hnlne
    exact absurd hsc hsch
  · simp only [hsp] at h
    obtain ⟨hsplit, hnm⟩ := splitFirst_eq_some ':' (removeUnsafe a)
      before after hsp
    have hafter : ∀ c ∈ after, isUnsafe c = false := by
      intro c hc
      exact hu c (by rw [hsplit]; simp [hc])
    cases before with
    | nil =>
      simp only at h
      obtain ⟨hsc, _⟩ := urlsplitRest_ok_shape [] (removeUnsafe a) r h hu
        hnlne
      exact absurd hsc hsch
    | cons c cs =>
      simp only at h
      by_cases hcond : c.isAlpha = true ∧ cs.all isSchemeChar = true
      · rw [if_pos hcond] at h
        obtain ⟨hsc, hrest⟩ := urlsplitRest_ok_shape
          ((c :: cs).map Char.toLower) after r h hafter hnlne
        refine ⟨?_, ?_, hrest.1, hrest.2.1, hrest.2.2.1, hrest.2.2.2.1,
          hrest.2.2.2.2.1, hrest.2.2.2.2.2.1, hrest.2.2.2.2.2.2.1,
          hrest.2.2.2.2.2.2.2.1, hrest.2.2.2.2.2.2.2.2⟩
        · rw [hsc]
          exact validScheme_lower (c :: cs) hcond
        · rw [hsc]
          exact map_toLower_toLower (c :: cs)
      · rw [if_neg hcond] at h
        obtain ⟨hsc, _⟩ := urlsplitRest_ok_shape [] (removeUnsafe a) r h hu
          hnlne
        exact absurd hsc hsch

theorem splitParams_fst_props (x : List Char) :
    (∀ c ∈ (splitParams x).1, c ∈ x) ∧
    ((splitParams x).1 = [] ∨ (splitParams x).1.head? = x.head?) := by
  cases hm : splitLastAt '/' x with
  | none =>
    cases hs : splitFirst ';' x with
    | none =>
      simp only [splitParams, hm, hs]
      exact ⟨fun c hc => hc, Or.inr trivial⟩
    | some ab =>
      obtain ⟨a, b⟩ := ab
      obtain ⟨hx, _⟩ := splitFirst_eq_some ';' x a b hs
      simp only [splitParams, hm, hs]
      refine ⟨fun c hc => by rw [hx]; simp [hc], ?_⟩
      cases a with
      | nil => left; rfl
      | cons a0 as0 =>
        right
        rw [hx]
        rfl
  | some ps =>
    obtain ⟨pre, seg⟩ := ps
    obtain ⟨hx, hns⟩ := splitLastAt_eq_some '/' x pre seg hm
    cases hs : splitFirst ';' seg with
    | none =>
      simp only [splitParams, hm, hs]
      exact ⟨fun c hc => hc, Or.inr trivial⟩
    | some ab =>
      obtain ⟨a, b⟩ := ab
      obtain ⟨hseg, _⟩ := splitFirst_eq_some ';' seg a b hs
      simp only [splitParams, hm, hs]
      constructor
      · intro c hc
        rw [hx, hseg]
        rcases List.mem_append.mp hc with hc | hc
        · simp [hc]
        · rcases List.mem_cons.mp hc with rfl | hc
          · simp
          · simp [hc]
      · right
        rw [hx]
        cases pre with
        | nil => rfl
        | cons p0 ps0 => rfl

theorem urlparseE_ok_shape (a : List Char) (r : ParseRes)
    (h : urlparseE a [] = Except.ok r) (hsch : r.scheme ≠ [])
    (hnlne : r.netloc ≠ []) :
    ValidScheme r.scheme ∧ List.map Char.toLower r.scheme = r.scheme ∧
    (∀ c ∈ r.netloc, notNetlocDelim c = true) ∧ BracketOk r.netloc ∧
    (r.path = [] ∨ r.path.head? = some '/') ∧
    '#' ∉ r.path ∧ '?' ∉ r.path ∧ splitParams r.path = (r.path, []) ∧
    '#' ∉ r.query ∧
    (∀ c ∈ r.netloc, isUnsafe c = false) ∧
    (∀ c ∈ r.path, isUnsafe c = false) ∧
    (∀ c ∈ r.query, isUnsafe c = false) := by
  unfold urlparseE at h
  rcases hsp : urlsplitE a [] with e | s0
  · rw [hsp] at h; cases h
  · rw [hsp] at h
    simp only [Except.ok.injEq] at h
    subst h
    have hsch0 : s0.scheme ≠ [] := hsch
    have hnl0 : s0.netloc ≠ [] := hnlne
    obtain ⟨v1, v2, v3, v4, v5, v6, v7, v8, v9, v10, v11⟩ :=
      urlsplitE_ok_shape a s0 hsp hsch0 hnl0
    obtain ⟨hsub, hhead⟩ := splitParams_fst_props s0.path
    refine ⟨v1, v2, v3, v4, ?_, fun hc => v6 (hsub _ hc),
      fun hc => v7 (hsub _ hc), splitParams_stable s0.path, v8, v9,
      fun c hc => v10 c (hsub c hc), v11⟩
    rcases hhead with h0 | h0
    · left; exact h0
    · rcases v5 with h5 | h5
      · left
        cases hpe : (splitParams s0.path).1 with
        | nil => rfl
        | cons a0 as0 =>
          rw [hpe] at h0
          rw [h5] at h0
          cases h0
      · right
        rw [h0, h5]

theorem normalizeUrlL_shape (url base N : List Char)
    (h : normalizeUrlL url base = some N) :
    ∃ s nl p q, N = assembleUrl s nl p q [] ∧ ValidScheme s ∧
      List.map Char.toLower s = s ∧ nl ≠ [] ∧
      (∀ c ∈ nl, notNetlocDelim c = true) ∧ BracketOk nl ∧
      (p = [] ∨ p.head? = some '/') ∧ '#' ∉ p ∧ '?' ∉ p ∧
      splitParams p = (p, []) ∧ '#' ∉ q ∧
      (∀ c ∈ nl ++ p ++ q ++ ([] : List Char), isUnsafe c = false) := by
  unfold normalizeUrlL at h
  dsimp only at h
  split at h
  · cases h
  · rcases hj : urljoinE base (pyStrip url) with e | A
    · simp only [hj] at h
      cases h
    · simp only [hj] at h
      rcases hp : urlparseE A [] with e | P
      · simp only [hp] at h
        cases h
      · simp only [hp] at h
        split at h
        · cases h
        · rename_i hcond
          push_neg at hcond
          obtain ⟨hsne, hnlne⟩ := hcond
          simp only [Option.some_inj] at h
          obtain ⟨v1, v2, v3, v4, v5, v6, v7, v8, v9, v10, v11, v12⟩ :=
            urlparseE_ok_shape A P hp hsne hnlne
          refine ⟨P.scheme, P.netloc, P.path, P.query, ?_, v1, v2, hnlne,
            v3, v4, v5, v6, v7, v8, v9, ?_⟩
          · rw [← h]
            by_cases hq : P.query = [] <;>
              simp [assembleUrl, qpart, fpart, hq, List.append_assoc]
          · intro c hc
            simp only [List.append_nil, List.mem_append] at hc
            rcases hc with (hc | hc) | hc
            · exact v10 c hc
            · exact v11 c hc
            · exact v12 c hc

/-! ## Claim C4 -/

/-- C4 counterexample: on the input
`http://Example.COM:80/foo?b=1&a=2#frag` (with base
`http://example.com/`) the normalizer returns
`http://Example.COM:80/foo?b=1&a=2`: the host case is kept (the netloc
`Example.COM:80` is not lowercase), the default port `:80` is kept, the
query keeps its original order `b=1&a=2`, and no trailing slash is
appended even though the last path segment `foo` contains no dot.  Only
the fragment-drop part of the claim holds on this input. -/
theorem normalize_keeps_host_case_port_and_query_order :
    normalizeUrl "http://Example.COM:80/foo?b=1&a=2#frag"
      "http://example.com/" = some "http://Example.COM:80/foo?b=1&a=2" ∧
    netlocOf "http://Example.COM:80/foo?b=1&a=2" = "Example.COM:80" ∧
    strLower "Example.COM:80" ≠ "Example.COM:80" ∧
    strContains "http://Example.COM:80/foo?b=1&a=2" "b=1&a=2" = true ∧
    ("http://Example.COM:80/foo?b=1&a=2").toList.getLast? ≠ some '/' :=
  ⟨by decide, by decide, by decide, by decide, by decide⟩

/-- C4 (amended): on every well-formed absolute URL
`scheme://netloc/path?query#fragment` that survives the normalizer's
guards, `_normalize_url` returns `scheme.lower()://netloc/path?query`:
the scheme is lowercased and the fragment (and params) dropped, while
the netloc — host case and any port, default or not — the path, and the
query — in its original parameter order, unsorted — are reproduced
verbatim, and no trailing slash is added. -/
theorem normalize_canonical_components (base s nl p q f : List Char)
    (hs : ValidScheme s)
    (hnl : nl ≠ [])
    (hnlp : ∀ c ∈ nl, notNetlocDelim c = true)
    (hbr : BracketOk nl)
    (hp0 : p = [] ∨ p.head? = some '/')
    (hph : '#' ∉ p) (hpq : '?' ∉ p)
    (hpp : splitParams p = (p, []))
    (hqh : '#' ∉ q)
    (hcl : ∀ c ∈ nl ++ p ++ q ++ f, isUnsafe c = false)
    (hstrip : pyStrip (assembleUrl s nl p q f) = assembleUrl s nl p q f)
    (hjs : "javascript:".toList.isPrefixOf (assembleUrl s nl p q f) = false)
    (hmt : "mailto:".toList.isPrefixOf (assembleUrl s nl p q f) = false)
    (htl : "tel:".toList.isPrefixOf (assembleUrl s nl p q f) = false)
    (hbase : base = [] ∨ ∃ bp, urlparseE base [] = Except.ok bp) :
    normalizeUrlL (assembleUrl s nl p q f) base =
      some (assembleUrl (s.map Char.toLower) nl p q []) :=
  normalize_assembled base s nl p q f hs hnl hnlp hbr hp0 hph hpq hpp
    hqh hcl hstrip hjs hmt htl hbase

theorem normalize_canonical_components_witness :
    normalizeUrlL "HTTP://Example.COM:80/foo?b=1&a=2#frag".toList
      "http://example.com/".toList =
      some "http://Example.COM:80/foo?b=1&a=2".toList := by
  have h := normalize_canonical_components "http://example.com/".toList
    "HTTP".toList "Example.COM:80".toList "/foo".toList "b=1&a=2".toList
    "frag".toList ⟨by decide, by decide⟩ (by decide) (by decide)
    (by unfold BracketOk; decide) (Or.inr (by decide)) (by decide)
    (by decide) (by decide) (by decide) (by decide) (by decide)
    (by decide) (by decide) (by decide) (Or.inr ⟨_, rfl⟩)
  exact h

/-! ## Claim C9 -/

/-- C9 counterexample: normalization is not idempotent on all accepted
inputs.  `JavaScript://evil/x` passes the (case-sensitive) scheme guard
and normalizes to `javascript://evil/x`, but running the normalizer on
that output hits the `javascript:` guard and returns `None` — not the
output unchanged. -/
theorem normalize_not_idempotent :
    normalizeUrl "JavaScript://evil/x" "http://example.com/" =
      some "javascript://evil/x" ∧
    normalizeUrl "javascript://evil/x" "http://example.com/" = none :=
  ⟨by decide, by decide⟩

/-- C9 (amended): idempotence holds only away from the normalizer's own
rejection guards.  If a first run (any base) returned `N`, and `N` is
whitespace-stripped and does not start with `javascript:`, `mailto:` or
`tel:`, then re-running the normalizer on `N` with any base that is
empty or parseable returns `N` unchanged. -/
theorem normalize_idempotent_guarded (url base base2 N : List Char)
    (h : normalizeUrlL url base = some N)
    (hstrip : pyStrip N = N)
    (hjs : "javascript:".toList.isPrefixOf N = false)
    (hmt : "mailto:".toList.isPrefixOf N = false)
    (htl : "tel:".toList.isPrefixOf N = false)
    (hbase2 : base2 = [] ∨ ∃ bp, urlparseE base2 [] = Except.ok bp) :
    normalizeUrlL N base2 = some N := by
  obtain ⟨s, nl, p, q, hN, hs, hlow, hnl, hnlp, hbr, hp0, hph, hpq, hpp,
    hqh, hcl⟩ := normalizeUrlL_shape url base N h
  subst hN
  have hmain := normalize_assembled base2 s nl p q [] hs hnl hnlp hbr hp0
    hph hpq hpp hqh hcl hstrip hjs hmt htl hbase2
  rw [hlow] at hmain
  exact hmain

theorem normalize_idempotent_guarded_witness :
    normalizeUrlL "http://Host/a?q".toList [] =
      some "http://Host/a?q".toList := by
  have h := normalize_idempotent_guarded "HTTP://Host/a?q#f".toList
    "http://example.com/".toList [] "http://Host/a?q".toList
    (by decide) (by decide) (by decide) (by decide) (by decide)
    (Or.inl rfl)
  exact h

/-! ## Claim C8 -/

/-- C8 counterexample: the claim quantifies over every category
filter, but for the empty-string category Python's `if category:` is
falsy and drops the filter entirely — no row of the store has category
`""`, yet the query with that filter returns rows (of categories
`cat` and `other`), so "every returned entry satisfies the given
filters" fails. -/
theorem getPendingUrls_empty_category_filter_dropped :
    (∀ r ∈ dbC8.rows, r.category ≠ "") ∧
    getPendingUrls dbC8 (some "") none 5 ≠ [] := by
  refine ⟨by decide, fun h => ?_⟩
  rw [getPendingUrls, List.take_eq_nil_iff] at h
  rcases h with h | h
  · exact absurd h (by decide)
  · have hp := List.mergeSort_perm
      (dbC8.rows.filter (pendingCond (some "") none))
      (fun a b : FrontierRow => a.insertDate ≤ b.insertDate)
    rw [h] at hp
    exact absurd hp.symm.eq_nil (by decide)

/-- C8 (amended): for every category filter other than the empty
string, every url_type filter and every limit, `get_pending_urls`
returns at most `lim` rows; every returned row has status PENDING and
satisfies the given filters; and the result is ordered by
`insert_date` ascending.  A category filter that is the empty string
is Python-falsy and is dropped by `if category:` (see the
counterexample), so rows of other categories are returned for it. -/
theorem getPendingUrls_spec (db : FrontierDb) (category : Option String)
    (urlType : Option UrlType) (lim : Nat) (hc : category ≠ some "") :
    (getPendingUrls db category urlType lim).length ≤ lim ∧
    (∀ r ∈ getPendingUrls db category urlType lim,
      r.status = .pending ∧
      (∀ c, category = some c → r.category = c) ∧
      (∀ t, urlType = some t → r.urlType = t)) ∧
    (getPendingUrls db category urlType lim).Pairwise
      (fun a b => a.insertDate ≤ b.insertDate) := by
  refine ⟨List.length_take_le _ _, ?_, ?_⟩
  · intro r hr
    have hr1 : r ∈ (db.rows.filter (pendingCond category urlType)).mergeSort
        (fun a b => a.insertDate ≤ b.insertDate) :=
      List.mem_of_mem_take hr
    have hr2 : r ∈ db.rows.filter (pendingCond category urlType) :=
      (List.mergeSort_perm _ _).mem_iff.mp hr1
    have hcond : pendingCond category urlType r = true :=
      (List.mem_filter.mp hr2).2
    refine ⟨?_, ?_, ?_⟩
    · simp only [pendingCond, Bool.and_eq_true, decide_eq_true_eq] at hcond
      exact hcond.1.1
    · intro c hcat
      subst hcat
      have hce : c ≠ "" := fun h => hc (by rw [h])
      simp only [pendingCond, Bool.and_eq_true, decide_eq_true_eq,
        if_neg hce] at hcond
      exact hcond.1.2
    · intro t ht
      subst ht
      simp only [pendingCond, Bool.and_eq_true, decide_eq_true_eq] at hcond
      exact hcond.2
  · have hs := @List.sorted_mergeSort FrontierRow
      (fun a b : FrontierRow => decide (a.insertDate ≤ b.insertDate))
      (fun a b c hab hbc => by
        simp only [decide_eq_true_eq] at hab hbc ⊢
        omega)
      (fun a b => by
        simp only [Bool.or_eq_true, decide_eq_true_eq]
        omega)
      (db.rows.filter (pendingCond category urlType))
    have hs' := List.Pairwise.sublist (List.take_sublist lim _) hs
    exact hs'.imp (fun h => by simpa using h)

/-- C8 witness: the theorem at a concrete store, category filter and
limit. -/
theorem getPendingUrls_spec_witness :
    (getPendingUrls dbC8 (some "cat") (some .singlePage) 2).length ≤ 2 ∧
    (∀ r ∈ getPendingUrls dbC8 (some "cat") (some .singlePage) 2,
      r.status = .pending ∧
      (∀ c, (some "cat" : Option String) = some c → r.category = c) ∧
      (∀ t, (some UrlType.singlePage : Option UrlType) = some t →
        r.urlType = t)) ∧
    (getPendingUrls dbC8 (some "cat") (some .singlePage) 2).Pairwise
      (fun a b => a.insertDate ≤ b.insertDate) :=
  getPendingUrls_spec dbC8 (some "cat") (some .singlePage) 2 (by decide)

end Doccrawl
